import Mathlib

/-!
Transactions of the Subversion filesystem (`libsvn_fs/txn.c`).

A shallow embedding of `txn.c`: the durable tables are an explicit value that is
passed through every call, a trail is a working copy of the tables together with
a log of the mutating backend calls made through it, and every function returns
the error (or the result) together with the tables it leaves behind. A
transaction handle lives in a private pool of memory; `svn_fs_close_txn`, which
destroys that pool, works on the table of the handles that are alive.

The recursion of `delete_from_id` follows directory entries of the store, which
may be cyclic, so it carries a depth bound: `none` stands for "has not returned
within the bound".

Three smaller sources follow the same pattern: `dav_svn_compare_locktoken` of
`mod_dav_svn/lock.c`, `svn_client_checkout` of `libsvn_client/checkout.c`, whose
collaborators are a record of answers and whose result carries the calls made,
and `canonicalize_username` and `try_auth` of `svnserve/sasl_auth.c`, with C
strings as lists of bytes, `unsigned` arithmetic modulo 2^32, and the connection
and the SASL library as a script of answers.
-/

namespace SvnFs

/-! ## Data model -/

/-- Node ID: an opaque key of the `nodes` table, compared by equality only. -/
abbrev svn_fs_id_t := Nat

/-- Revision number (a signed integer in the source; negative numbers name no revision). -/
abbrev svn_revnum_t := Int

/-- Error kinds of the store. `FsNotOpen` is what `svn_fs__check_fs` reports and
`NotDirectory` what reading the entries of a file reports. -/
inductive svn_error_t where
  | NotFound
  | MutabilityViolation
  | TransientConflict
  | BackendFailure
  | MutuallyExclusiveArguments
  | FsNotOpen
  | NotDirectory
deriving DecidableEq, Repr

/-- Content reference of a node-revision: a blob handle for a file, the mapping
from entry name to child Node ID for a directory. -/
inductive node_content where
  | file (blob : Nat)
  | dir (entries : List (String × svn_fs_id_t))
deriving DecidableEq, Repr

/-- One node-revision record: its content reference and its mutability flag. -/
structure node_revision where
  content : node_content
  is_mutable : Bool
deriving DecidableEq, Repr

/-- One record of the `transactions` table: the root of the transaction and the
root of the revision it is based on. -/
structure transaction where
  root_id : svn_fs_id_t
  base_root_id : svn_fs_id_t
deriving DecidableEq, Repr

/-- The durable tables of one backing store. Revision `n` is the `n`-th element
of `revisions`. -/
structure Store where
  nodes : List (svn_fs_id_t × node_revision)
  transactions : List (String × transaction)
  revisions : List svn_fs_id_t
deriving DecidableEq, Repr

/-- The filesystem handle: the identity of the backing store it is bound to and
whether it is open. The tables themselves are passed separately. -/
structure svn_fs_t where
  ident : Nat
  is_open : Bool
deriving DecidableEq, Repr

/-- The structure underlying `svn_fs_txn_t` (`txn.c` 35-52): the filesystem the
transaction belongs to and its ID, the key into the `transactions` table. The
private pool has no field here: it is the key under which the handle is held in
memory (`txn_handles`). -/
structure svn_fs_txn_t where
  fs : svn_fs_t
  id : String
deriving DecidableEq, Repr

/-- A mutating call made on the backend through a trail. -/
inductive backend_call where
  | delete_node_revision (id : svn_fs_id_t)
  | delete_txn (name : String)
  | create_txn (name : String)
deriving DecidableEq, Repr

/-- A trail: the tables as the body of one atomic work unit sees them, and the
mutating backend calls the body has made so far, oldest first. -/
structure trail_t where
  db : Store
  log : List backend_call
deriving DecidableEq, Repr

/-- Equality of results is decidable when it is for errors and values. -/
instance instDecidableEqExcept {ε α : Type} [DecidableEq ε] [DecidableEq α] :
    DecidableEq (Except ε α)
  | .ok a, .ok b =>
    if h : a = b then isTrue (congrArg Except.ok h)
    else isFalse (fun h1 => h (Except.ok.inj h1))
  | .error a, .error b =>
    if h : a = b then isTrue (congrArg Except.error h)
    else isFalse (fun h1 => h (Except.error.inj h1))
  | .ok _, .error _ => isFalse (fun h => Except.noConfusion h)
  | .error _, .ok _ => isFalse (fun h => Except.noConfusion h)

/-- What a function of the store returns: no answer within the depth bound
(`none`), or the error or result together with the state it leaves. -/
abbrev Outcome (σ α : Type) := Option (Except svn_error_t α × σ)

/-! ## Table access -/

/-- First record stored under `k` in a keyed table. -/
def table_get {κ β : Type} [DecidableEq κ] (k : κ) : List (κ × β) → Option β
  | [] => none
  | (k1, v) :: rest => if k1 = k then some v else table_get k rest

/-- The table without any record stored under `k`. -/
def table_del {κ β : Type} [DecidableEq κ] (k : κ) (tbl : List (κ × β)) : List (κ × β) :=
  tbl.filter (fun p => decide (p.1 ≠ k))

/-- The keys of a table. -/
def table_keys {κ β : Type} (tbl : List (κ × β)) : List κ :=
  tbl.map Prod.fst

/-! ## The collaborators of `txn.c` -/

/-- Modelled from the spec: `svn_fs__check_fs` (fs.c is not part of the sources);
a handle passes the check when it is open. -/
def svn_fs__check_fs (fs : svn_fs_t) : Except svn_error_t Unit :=
  if fs.is_open then .ok () else .error .FsNotOpen

/-- Modelled from the spec: `svn_fs__rev_get_root` (rev-table.c); the revision
table maps a revision number to its root, NotFound for an unknown number. -/
def svn_fs__rev_get_root (rev : svn_revnum_t) (trail : trail_t) :
    Except svn_error_t svn_fs_id_t :=
  if rev < 0 then .error .NotFound
  else
    match trail.db.revisions.get? rev.toNat with
    | some root => .ok root
    | none => .error .NotFound

/-- Modelled from the spec: the fresh transaction name `svn_fs__create_txn`
allocates (txn-table.c); here a name longer than every name in use. -/
def fresh_txn_name (names : List String) : String :=
  String.mk (List.replicate ((names.map String.length).foldr max 0 + 1) 't')

/-- Modelled from the spec: `svn_fs__create_txn` (txn-table.c); allocates a fresh
name and adds a record whose root and base root are both `root_id`. -/
def svn_fs__create_txn (root_id : svn_fs_id_t) (trail : trail_t) :
    Except svn_error_t String × trail_t :=
  let name := fresh_txn_name (table_keys trail.db.transactions)
  (.ok name,
   { db := { trail.db with
             transactions := trail.db.transactions ++ [(name, ⟨root_id, root_id⟩)] },
     log := trail.log ++ [.create_txn name] })

/-- Modelled from the spec: `svn_fs__get_txn` (txn-table.c); the root and the
base root of the named transaction, NotFound when no record has that name. -/
def svn_fs__get_txn (name : String) (trail : trail_t) :
    Except svn_error_t (svn_fs_id_t × svn_fs_id_t) :=
  match table_get name trail.db.transactions with
  | some rec => .ok (rec.root_id, rec.base_root_id)
  | none => .error .NotFound

/-- Modelled from the spec: `svn_fs__delete_txn` (txn-table.c); removes the
record of the named transaction, NotFound when there is none. -/
def svn_fs__delete_txn (name : String) (trail : trail_t) :
    Except svn_error_t Unit × trail_t :=
  let logged : trail_t := { trail with log := trail.log ++ [.delete_txn name] }
  match table_get name trail.db.transactions with
  | some _ =>
    (.ok (), { logged with
               db := { trail.db with transactions := table_del name trail.db.transactions } })
  | none => (.error .NotFound, logged)

/-- Modelled from the spec: `svn_fs__get_txn_list` (txn-table.c); the names of
the durable transaction records. -/
def svn_fs__get_txn_list (trail : trail_t) : Except svn_error_t (List String) :=
  .ok (table_keys trail.db.transactions)

/-- Modelled from the spec: the in-memory node `svn_fs__dag_get_node` returns
(dag.c); it remembers its ID and whether it is a directory. -/
structure dag_node_t where
  id : svn_fs_id_t
  is_dir : Bool
deriving DecidableEq, Repr

/-- Whether a content reference is that of a directory. -/
def node_content.is_directory : node_content → Bool
  | .file _ => false
  | .dir _ => true

/-- Modelled from the spec: `svn_fs__dag_get_node` (dag.c); `get(id)` of the
node-revision store, NotFound when no record exists for `id`. -/
def svn_fs__dag_get_node (id : svn_fs_id_t) (trail : trail_t) :
    Except svn_error_t dag_node_t :=
  match table_get id trail.db.nodes with
  | some rec => .ok ⟨id, rec.content.is_directory⟩
  | none => .error .NotFound

/-- Modelled from the spec: `svn_fs__dag_check_mutable` (dag.c); reads the
current mutability flag of the node-revision through the trail. -/
def svn_fs__dag_check_mutable (node : dag_node_t) (trail : trail_t) :
    Except svn_error_t Bool :=
  match table_get node.id trail.db.nodes with
  | some rec => .ok rec.is_mutable
  | none => .error .NotFound

/-- Modelled from the spec: `svn_fs__dag_is_directory` (dag.c). -/
def svn_fs__dag_is_directory (node : dag_node_t) : Bool :=
  node.is_dir

/-- Modelled from the spec: `svn_fs__dag_dir_entries_skel` (dag.c); the entries
of a directory, each a name and the Node ID `svn_fs_parse_id` reads from it. -/
def svn_fs__dag_dir_entries_skel (node : dag_node_t) (trail : trail_t) :
    Except svn_error_t (List (String × svn_fs_id_t)) :=
  match table_get node.id trail.db.nodes with
  | some rec =>
    match rec.content with
    | .dir entries => .ok entries
    | .file _ => .error .NotDirectory
  | none => .error .NotFound

/-- Modelled from the spec: `svn_fs__delete_node_revision` (node-rev.c);
`delete(id)` of the node-revision store: NotFound when there is no record,
MutabilityViolation when the record is immutable, else the record is removed. -/
def svn_fs__delete_node_revision (id : svn_fs_id_t) (trail : trail_t) :
    Except svn_error_t Unit × trail_t :=
  let logged : trail_t := { trail with log := trail.log ++ [.delete_node_revision id] }
  match table_get id trail.db.nodes with
  | none => (.error .NotFound, logged)
  | some rec =>
    if rec.is_mutable then
      (.ok (), { logged with db := { trail.db with nodes := table_del id trail.db.nodes } })
    else (.error .MutabilityViolation, logged)

/-- Modelled from the spec: `svn_fs__retry_txn` (trail.c); runs the body in a
fresh trail over the durable tables, publishes the tables of the trail when the
body succeeds and keeps the durable tables as they were when it fails. Calls are
sequential here, so the backend reports no transient conflict and the body runs
once. -/
def svn_fs__retry_txn {α : Type} (body : trail_t → Outcome trail_t α) (db : Store) :
    Outcome Store α :=
  match body ⟨db, []⟩ with
  | none => none
  | some (.ok a, trail) => some (.ok a, trail.db)
  | some (.error e, _) => some (.error e, db)

/-! ## `txn.c` -/

/-- Source `make_txn` (`txn.c` 61-74). -/
def make_txn (fs : svn_fs_t) (id : String) : svn_fs_txn_t :=
  { fs := fs, id := id }

/-- Source `txn_body_begin_txn` (`txn.c` 85-98). -/
def txn_body_begin_txn (fs : svn_fs_t) (rev : svn_revnum_t) (trail : trail_t) :
    Outcome trail_t svn_fs_txn_t :=
  match svn_fs__rev_get_root rev trail with
  | .error e => some (.error e, trail)
  | .ok root_id =>
    match svn_fs__create_txn root_id trail with
    | (.error e, trail1) => some (.error e, trail1)
    | (.ok svn_txn_id, trail1) => some (.ok (make_txn fs svn_txn_id), trail1)

/-- Source `svn_fs_begin_txn` (`txn.c` 103-121). -/
def svn_fs_begin_txn (fs : svn_fs_t) (rev : svn_revnum_t) (db : Store) :
    Outcome Store svn_fs_txn_t :=
  match svn_fs__check_fs fs with
  | .error e => some (.error e, db)
  | .ok () => svn_fs__retry_txn (txn_body_begin_txn fs rev) db

/-- Source `svn_fs_txn_name` (`txn.c` 126-133): a copy of the transaction's ID. -/
def svn_fs_txn_name (txn : svn_fs_txn_t) : Except svn_error_t String :=
  .ok txn.id

/-- Source `svn_fs_txn_fs` (`txn.c` 136-140). -/
def svn_fs_txn_fs (txn : svn_fs_txn_t) : svn_fs_t :=
  txn.fs

/-- A private pool of memory, by its identity. A pointer to a transaction handle
is given by the private pool of the handle, in which `make_txn` allocates it
(`txn.c` 66-69). -/
abbrev apr_pool_t := Nat

/-- The transaction handles in memory: under each private pool that is alive, the
structure allocated in it. A handle can be used while its pool is alive. -/
abbrev txn_handles := List (apr_pool_t × svn_fs_txn_t)

/-- Source `svn_fs_close_txn` (`txn.c` 146-156): destroys the private pool of the
handle, which frees the handle itself, and returns no error; it makes no call on
the backend, so the tables are the ones it was given. On a handle that is not
alive the source reads freed memory and there is no result. -/
def svn_fs_close_txn (txn_pool : apr_pool_t) (handles : txn_handles) (db : Store) :
    Outcome (Store × txn_handles) Unit :=
  match table_get txn_pool handles with
  | none => none
  | some _ => some (.ok (), (db, table_del txn_pool handles))

/-- The `for` loop of `delete_from_id` (`txn.c` 190-197): `visit` on the ID of
each entry in turn, stopping at the first error. -/
def delete_entries (visit : svn_fs_id_t → trail_t → Outcome trail_t Unit) :
    List (String × svn_fs_id_t) → trail_t → Outcome trail_t Unit
  | [], trail => some (.ok (), trail)
  | entry :: rest, trail =>
    match visit entry.2 trail with
    | none => none
    | some (.error e, trail1) => some (.error e, trail1)
    | some (.ok (), trail1) => delete_entries visit rest trail1

/-- Source `delete_from_id` (`txn.c` 171-204), with a bound on the depth of the
recursion: `depth + 1` allows calls nested `depth` deep below this one. -/
def delete_from_id : Nat → svn_fs_id_t → trail_t → Outcome trail_t Unit
  | 0, _, _ => none
  | depth + 1, id, trail =>
    match svn_fs__dag_get_node id trail with
    | .error e => some (.error e, trail)
    | .ok node =>
      match svn_fs__dag_check_mutable node trail with
      | .error e => some (.error e, trail)
      | .ok false => some (.ok (), trail)
      | .ok true =>
        if svn_fs__dag_is_directory node then
          match svn_fs__dag_dir_entries_skel node trail with
          | .error e => some (.error e, trail)
          | .ok entries =>
            match delete_entries (delete_from_id depth) entries trail with
            | none => none
            | some (.error e, trail1) => some (.error e, trail1)
            | some (.ok (), trail1) => some (svn_fs__delete_node_revision id trail1)
        else some (svn_fs__delete_node_revision id trail)

/-- Source `txn_body_abort_txn` (`txn.c` 207-221). -/
def txn_body_abort_txn (depth : Nat) (txn : svn_fs_txn_t) (trail : trail_t) :
    Outcome trail_t Unit :=
  match svn_fs_txn_name txn with
  | .error e => some (.error e, trail)
  | .ok txn_name =>
    match svn_fs__get_txn txn_name trail with
    | .error e => some (.error e, trail)
    | .ok (root_id, _) =>
      match delete_from_id depth root_id trail with
      | none => none
      | some (.error e, trail1) => some (.error e, trail1)
      | some (.ok (), trail1) => some (svn_fs__delete_txn txn.id trail1)

/-- Source `svn_fs_abort_txn` (`txn.c` 224-231). -/
def svn_fs_abort_txn (depth : Nat) (txn : svn_fs_txn_t) (db : Store) : Outcome Store Unit :=
  svn_fs__retry_txn (txn_body_abort_txn depth txn) db

/-- Source `txn_body_open_txn` (`txn.c` 245-258). -/
def txn_body_open_txn (fs : svn_fs_t) (name : String) (trail : trail_t) :
    Outcome trail_t svn_fs_txn_t :=
  match svn_fs__get_txn name trail with
  | .error e => some (.error e, trail)
  | .ok _ => some (.ok (make_txn fs name), trail)

/-- Source `svn_fs_open_txn` (`txn.c` 261-279). -/
def svn_fs_open_txn (fs : svn_fs_t) (name : String) (db : Store) :
    Outcome Store svn_fs_txn_t :=
  match svn_fs__check_fs fs with
  | .error e => some (.error e, db)
  | .ok () => svn_fs__retry_txn (txn_body_open_txn fs name) db

/-- Source `txn_body_list_transactions` (`txn.c` 289-297). -/
def txn_body_list_transactions (trail : trail_t) : Outcome trail_t (List String) :=
  match svn_fs__get_txn_list trail with
  | .error e => some (.error e, trail)
  | .ok names => some (.ok names, trail)

/-- Source `svn_fs_list_transactions` (`txn.c` 299-316). -/
def svn_fs_list_transactions (fs : svn_fs_t) (db : Store) : Outcome Store (List String) :=
  match svn_fs__check_fs fs with
  | .error e => some (.error e, db)
  | .ok () => svn_fs__retry_txn txn_body_list_transactions db

/-! ## Reachability in the node-revision table -/

/-- Node `i` has a record in the tables and the record is flagged mutable. -/
def is_mutable_in (db : Store) (i : svn_fs_id_t) : Prop :=
  ∃ rec, table_get i db.nodes = some rec ∧ rec.is_mutable = true

/-- Node `d` is a directory of the tables and `c` is the ID of one of its entries. -/
def has_entry (db : Store) (d c : svn_fs_id_t) : Prop :=
  ∃ rec entries, table_get d db.nodes = some rec ∧ rec.content = .dir entries ∧
    c ∈ entries.map Prod.snd

/-- Node `i` is reachable from `root` by directory entries, whatever the
mutability of the directories on the way. -/
inductive reachable (db : Store) (root : svn_fs_id_t) : svn_fs_id_t → Prop where
  | here : reachable db root root
  | step {d c : svn_fs_id_t} : reachable db root d → has_entry db d c → reachable db root c

/-- Node `i` is reachable from `root` by directory entries along a path on which
every node, `root` and `i` included, is mutable. -/
inductive walk_reachable (db : Store) (root : svn_fs_id_t) : svn_fs_id_t → Prop where
  | here : is_mutable_in db root → walk_reachable db root root
  | step {d c : svn_fs_id_t} : walk_reachable db root d → has_entry db d c →
      is_mutable_in db c → walk_reachable db root c

/-- The table without the records stored under a key of `ids`. -/
def table_minus {β : Type} (ids : List svn_fs_id_t) (tbl : List (svn_fs_id_t × β)) :
    List (svn_fs_id_t × β) :=
  tbl.filter (fun p => decide (p.1 ∉ ids))

/-- The IDs on which the walk called `svn_fs__delete_node_revision`, oldest first. -/
def deleted_ids : List backend_call → List svn_fs_id_t
  | [] => []
  | .delete_node_revision id :: rest => id :: deleted_ids rest
  | _ :: rest => deleted_ids rest

/-! ## Sample stores -/

/-- An open filesystem handle. -/
def sample_fs : svn_fs_t := ⟨1, true⟩

/-- Revision 0 with the tree `/a/b`, `/s`, and a transaction `t` based on it
that has made `/a/b` mutable: the mutable nodes are 1 (root), 12 (`/a`) and 21
(`/a/b`); `/s` is still the immutable node 11. -/
def sample_db : Store :=
  { nodes := [(0, ⟨.dir [("a", 10), ("s", 11)], false⟩), (10, ⟨.dir [("b", 20)], false⟩),
              (11, ⟨.file 1, false⟩), (20, ⟨.file 2, false⟩),
              (1, ⟨.dir [("a", 12), ("s", 11)], true⟩), (12, ⟨.dir [("b", 21)], true⟩),
              (21, ⟨.file 3, true⟩)],
    transactions := [("t", ⟨1, 0⟩)],
    revisions := [0] }

/-- The handle of transaction `t` of `sample_db`. -/
def sample_txn : svn_fs_txn_t := ⟨sample_fs, "t"⟩

/-- The tables of `sample_db` after a transaction was begun on revision 0. -/
def sample_db_begun : Store :=
  { sample_db with transactions := [("t", ⟨1, 0⟩), ("tt", ⟨0, 0⟩)] }

/-- The tables of `sample_db` after transaction `t` was aborted. -/
def sample_db_aborted : Store :=
  { nodes := [(0, ⟨.dir [("a", 10), ("s", 11)], false⟩), (10, ⟨.dir [("b", 20)], false⟩),
              (11, ⟨.file 1, false⟩), (20, ⟨.file 2, false⟩)],
    transactions := [],
    revisions := [0] }

/-! ## What the walk leaves behind -/

/-- Trail `t1` is trail `t` after calls of `svn_fs__delete_node_revision` on the
IDs `ids`, in that order, and nothing else: the calls are logged and the `nodes`
table has lost the records under those IDs. -/
def walk_frame (t t1 : trail_t) (ids : List svn_fs_id_t) : Prop :=
  t1.log = t.log ++ ids.map backend_call.delete_node_revision ∧
  t1.db = { t.db with nodes := table_minus ids t.db.nodes }

/-- Every record of `db1` is a record of `db`. -/
def sub_nodes (db1 db : Store) : Prop :=
  ∀ i rec, table_get i db1.nodes = some rec → table_get i db.nodes = some rec

/-- What a successful walk from `id` has done on the tables `db` it started on:
`ids` are distinct mutable nodes, `id` has a record and is among `ids` if it is
mutable, and every entry of a directory among `ids` has a record and is among
`ids` if it is mutable. -/
structure walk_complete (db : Store) (id : svn_fs_id_t) (ids : List svn_fs_id_t) : Prop where
  nodup : ids.Nodup
  all_mutable : ∀ i ∈ ids, is_mutable_in db i
  root_present : table_get id db.nodes ≠ none
  root_mem : is_mutable_in db id → id ∈ ids
  entry_present : ∀ i ∈ ids, ∀ c, has_entry db i c → table_get c db.nodes ≠ none
  entry_mem : ∀ i ∈ ids, ∀ c, has_entry db i c → is_mutable_in db c → c ∈ ids

/-- The same for the loop over the entries `entries` of one directory. -/
structure loop_complete (db : Store) (entries : List (String × svn_fs_id_t))
    (ids : List svn_fs_id_t) : Prop where
  nodup : ids.Nodup
  all_mutable : ∀ i ∈ ids, is_mutable_in db i
  child_present : ∀ c ∈ entries.map Prod.snd, table_get c db.nodes ≠ none
  child_mem : ∀ c ∈ entries.map Prod.snd, is_mutable_in db c → c ∈ ids
  entry_present : ∀ i ∈ ids, ∀ c, has_entry db i c → table_get c db.nodes ≠ none
  entry_mem : ∀ i ∈ ids, ∀ c, has_entry db i c → is_mutable_in db c → c ∈ ids

/-- A transaction `t` whose root is the immutable directory 0, which has an entry
for the mutable file 5. -/
def shared_db : Store :=
  { nodes := [(0, ⟨.dir [("f", 5)], false⟩), (5, ⟨.file 9, true⟩)],
    transactions := [("t", ⟨0, 0⟩)],
    revisions := [0] }

/-- The tables of `shared_db` after transaction `t` was aborted. -/
def shared_db_aborted : Store :=
  { shared_db with transactions := [] }

/-- A transaction `t` whose mutable root directory 1 has two entries, `a` and
`b`, for the same mutable file 2. -/
def diamond_db : Store :=
  { nodes := [(0, ⟨.dir [], false⟩), (1, ⟨.dir [("a", 2), ("b", 2)], true⟩),
              (2, ⟨.file 7, true⟩)],
    transactions := [("t", ⟨1, 0⟩)],
    revisions := [0] }

/-- The trail of the abort of `t` on `diamond_db` when the walk fails at the
second entry for node 2: node 2 is deleted in the trail. -/
def diamond_trail_failed : trail_t :=
  { db := { diamond_db with
            nodes := [(0, ⟨.dir [], false⟩), (1, ⟨.dir [("a", 2), ("b", 2)], true⟩)] },
    log := [.delete_node_revision 2] }

/-- Number of entries of node `d` that are for node `c`; 0 when `d` is not a
directory of the tables. -/
def entries_for (db : Store) (c d : svn_fs_id_t) : Nat :=
  match table_get d db.nodes with
  | some rec =>
    match rec.content with
    | .dir entries => (entries.map Prod.snd).count c
    | .file _ => 0
  | none => 0

/-- Number of entries of the nodes `ids`, taken together, that are for node `c`. -/
def entry_refs (db : Store) (c : svn_fs_id_t) : List svn_fs_id_t → Nat
  | [] => 0
  | d :: rest => entries_for db c d + entry_refs db c rest

/-- A successful walk from `id` has called `svn_fs__delete_node_revision` on a
mutable node once for each entry for it in the directories it deleted, and once
more on `id`. -/
def walk_count (db : Store) (id : svn_fs_id_t) (ids : List svn_fs_id_t) : Prop :=
  ∀ c, is_mutable_in db c → ids.count c = (if id = c then 1 else 0) + entry_refs db c ids

/-- The same for the loop over the entries `entries` of one directory. -/
def loop_count (db : Store) (entries : List (String × svn_fs_id_t))
    (ids : List svn_fs_id_t) : Prop :=
  ∀ c, is_mutable_in db c →
    ids.count c = (entries.map Prod.snd).count c + entry_refs db c ids

/-- The IDs `ids` are in post-order after the IDs `seen`: every entry of each of
them has a record and, if it is mutable, comes earlier, in `seen` or in `ids`. -/
def ordered_from (db : Store) : List svn_fs_id_t → List svn_fs_id_t → Prop
  | _, [] => True
  | seen, d :: rest =>
    (∀ c, has_entry db d c →
      table_get c db.nodes ≠ none ∧ (is_mutable_in db c → c ∈ seen)) ∧
    ordered_from db (seen ++ [d]) rest

/-! ## `mod_dav_svn/lock.c` -/

/-- The lock token of the provider (`lock.c` 35-40). -/
structure dav_locktoken where
  uuid : String
deriving DecidableEq, Repr

/-- Source `dav_svn_compare_locktoken` (`lock.c` 101-109). -/
def dav_svn_compare_locktoken (_lt1 _lt2 : dav_locktoken) : Int :=
  0

/-! ## `libsvn_client/checkout.c` -/

/-- A time, in microseconds; zero stands for "no time given". -/
abbrev apr_time_t := Int

/-- Modelled from the spec: the revision number of `svn_types.h` that names no
revision (the header is not part of the sources); revision numbers start at 0. -/
def SVN_INVALID_REVNUM : svn_revnum_t := -1

/-- A call `svn_client_checkout` makes on one of its collaborators. -/
inductive checkout_call where
  | wc_get_checkout_editor (revision : svn_revnum_t)
  | ra_init_ra_libs
  | ra_get_ra_library
  | client_authenticate
  | get_dated_revision (tm : apr_time_t)
  | do_checkout (revision : svn_revnum_t)
  | close
  | storage_callback
  | apr_file_open
  | xml_auto_parse (revision : svn_revnum_t)
  | apr_file_close
deriving DecidableEq, Repr

/-- What the collaborators of `svn_client_checkout` answer: for each of them the
error it returns, if any; for `get_dated_revision` the revision it finds for a
time; and whether authentication hands back a storage callback. -/
structure checkout_env where
  wc_get_checkout_editor : Option svn_error_t
  ra_init_ra_libs : Option svn_error_t
  ra_get_ra_library : Option svn_error_t
  client_authenticate : Option svn_error_t
  has_storage_callback : Bool
  get_dated_revision : apr_time_t → Except svn_error_t svn_revnum_t
  do_checkout : svn_revnum_t → Option svn_error_t
  close : Option svn_error_t
  storage_callback : Option svn_error_t
  apr_file_open : Option svn_error_t
  xml_auto_parse : svn_revnum_t → Option svn_error_t

/-- Source `svn_client_checkout` (`checkout.c` 130-142): the checkout of
`revision` through the RA session, its close, and the storage callback. -/
def checkout_drive_ra (env : checkout_env) (revision : svn_revnum_t) :
    Option svn_error_t × List checkout_call :=
  match env.do_checkout revision with
  | some e => (some e, [.do_checkout revision])
  | none =>
    match env.close with
    | some e => (some e, [.do_checkout revision, .close])
    | none =>
      if env.has_storage_callback then
        (env.storage_callback, [.do_checkout revision, .close, .storage_callback])
      else (none, [.do_checkout revision, .close])

/-- Source `svn_client_checkout` (`checkout.c` 117-142): the choice of the
revision once the RA session is open, and the checkout of it. -/
def checkout_select_revision (env : checkout_env) (revision : svn_revnum_t)
    (tm : apr_time_t) : Option svn_error_t × List checkout_call :=
  if revision ≠ SVN_INVALID_REVNUM ∧ tm ≠ 0 then
    (some .MutuallyExclusiveArguments, [])
  else if tm ≠ 0 then
    match env.get_dated_revision tm with
    | .error e => (some e, [.get_dated_revision tm])
    | .ok dated =>
      let res := checkout_drive_ra env dated
      (res.1, .get_dated_revision tm :: res.2)
  else checkout_drive_ra env revision

/-- Source `svn_client_checkout` (`checkout.c` 100-143): the checkout through
an RA session. -/
def checkout_from_ra (env : checkout_env) (revision : svn_revnum_t) (tm : apr_time_t) :
    Option svn_error_t × List checkout_call :=
  match env.ra_init_ra_libs with
  | some e => (some e, [.ra_init_ra_libs])
  | none =>
    match env.ra_get_ra_library with
    | some e => (some e, [.ra_init_ra_libs, .ra_get_ra_library])
    | none =>
      match env.client_authenticate with
      | some e => (some e, [.ra_init_ra_libs, .ra_get_ra_library, .client_authenticate])
      | none =>
        let res := checkout_select_revision env revision tm
        (res.1, [.ra_init_ra_libs, .ra_get_ra_library, .client_authenticate] ++ res.2)

/-- Source `svn_client_checkout` (`checkout.c` 145-170): the checkout from an
xml file. -/
def checkout_from_xml (env : checkout_env) (revision : svn_revnum_t) :
    Option svn_error_t × List checkout_call :=
  match env.apr_file_open with
  | some e => (some e, [.apr_file_open])
  | none =>
    match env.xml_auto_parse revision with
    | some e => (some e, [.apr_file_open, .xml_auto_parse revision])
    | none => (none, [.apr_file_open, .xml_auto_parse revision, .apr_file_close])

/-- Source `svn_client_checkout` (`checkout.c` 63-173). `path` and `URL` are not
NULL (the assertions of the source) and have no influence on the calls made, so
they are left out; `xml_src` is `none` for NULL. The result is the error
returned, if any, and the calls made on the collaborators, oldest first. -/
def svn_client_checkout (env : checkout_env) (revision : svn_revnum_t) (tm : apr_time_t)
    (xml_src : Option String) : Option svn_error_t × List checkout_call :=
  match env.wc_get_checkout_editor with
  | some e => (some e, [.wc_get_checkout_editor revision])
  | none =>
    let res :=
      match xml_src with
      | none => checkout_from_ra env revision tm
      | some _ => checkout_from_xml env revision
    (res.1, .wc_get_checkout_editor revision :: res.2)

/-- The revisions `do_checkout` was called with. -/
def do_checkout_calls : List checkout_call → List svn_revnum_t
  | [] => []
  | .do_checkout revision :: rest => revision :: do_checkout_calls rest
  | _ :: rest => do_checkout_calls rest

/-- The revisions the XML parse was run with. -/
def xml_parse_calls : List checkout_call → List svn_revnum_t
  | [] => []
  | .xml_auto_parse revision :: rest => revision :: xml_parse_calls rest
  | _ :: rest => xml_parse_calls rest

/-- Collaborators that all succeed; revision 7 is the one dated by any time. -/
def sample_checkout_env : checkout_env :=
  { wc_get_checkout_editor := none, ra_init_ra_libs := none, ra_get_ra_library := none,
    client_authenticate := none, has_storage_callback := true,
    get_dated_revision := fun _ => .ok 7, do_checkout := fun _ => none, close := none,
    storage_callback := none, apr_file_open := none, xml_auto_parse := fun _ => none }

/-- The same collaborators, except that authentication fails. -/
def sample_checkout_env_no_auth : checkout_env :=
  { sample_checkout_env with client_authenticate := some .BackendFailure }

/-! ## `svnserve/sasl_auth.c`: `canonicalize_username` -/

/-- Result codes of the SASL library (`sasl.h`). -/
def SASL_OK : Int := 0

/-- Another step is needed to authenticate. -/
def SASL_CONTINUE : Int := 1

/-- Bad protocol, the code `canonicalize_username` rejects with. -/
def SASL_BADPROT : Int := -5

/-- The byte that ends a C string. -/
def NUL : Char := Char.ofNat 0

/-- Values of the C type `unsigned` are below this number, and arithmetic on
them is modulo it. -/
def unsigned_modulus : Nat := 2 ^ 32

/-- C `strlen`: the number of bytes before the first NUL. A C string is given
by its bytes, the NUL that ends it left out. -/
def strlen (s : List Char) : Nat :=
  (s.takeWhile (fun b => decide (b ≠ NUL))).length

/-- C `memchr (s, c, n)` on the `n` bytes `s`: the index of the first byte equal
to `c`. -/
def memchr : List Char → Char → Option Nat
  | [], _ => none
  | b :: rest, c => if b = c then some 0 else (memchr rest c).map (fun i => i + 1)

/-- C `strncmp (s1, s2, n)`: compares at most `n` bytes and stops after a NUL; a
byte past the end of the list is the NUL that ends the string. -/
def strncmp : List Char → List Char → Nat → Int
  | _, _, 0 => 0
  | s1, s2, n + 1 =>
    if s1.headD NUL ≠ s2.headD NUL then
      ((s1.headD NUL).toNat : Int) - ((s2.headD NUL).toNat : Int)
    else if s1.headD NUL = NUL then 0
    else strncmp s1.tail s2.tail n

/-- C `strncpy (dst, src, n)`: the `n` bytes written to `dst`, which are the
bytes of `src` before its first NUL, at most `n` of them, then NULs. -/
def strncpy (src : List Char) (n : Nat) : List Char :=
  (src.take n).takeWhile (fun b => decide (b ≠ NUL)) ++
    List.replicate (n - ((src.take n).takeWhile (fun b => decide (b ≠ NUL))).length) NUL

/-- The writes that store `bytes` at index `i` and the following of a buffer. -/
def writes_at : Nat → List Char → List (Nat × Char)
  | _, [] => []
  | i, b :: rest => (i, b) :: writes_at (i + 1) rest

/-- What `canonicalize_username` returns: its result code, the value left in
`*out_len`, and the writes it made to `out`, as index and byte, oldest first. -/
structure canon_result where
  ret : Int
  out_len : Nat
  writes : List (Nat × Char)
deriving DecidableEq, Repr

/-- Source `canonicalize_username` (`sasl_auth.c` 47-89). `input` are the `inlen`
bytes of `in`, `user_realm` the bytes of the C string, whose length `realm_len`
holds as an `int`. -/
def canonicalize_username (input user_realm : List Char) (out_max : Nat) : canon_result :=
  let inlen := input.length
  let realm_len := strlen user_realm
  let pos := memchr input '@'
  let rejected :=
    match pos with
    | some p => decide (strncmp (input.drop (p + 1)) user_realm (inlen - (p + 1)) ≠ 0)
    | none => false
  if rejected then ⟨SASL_BADPROT, inlen, []⟩
  else
    let out_len :=
      match pos with
      | some _ => inlen
      | none => (inlen + (realm_len + 1)) % unsigned_modulus
    if out_len > out_max then ⟨SASL_BADPROT, out_len, []⟩
    else
      let copy_user := writes_at 0 (strncpy input inlen)
      let copy_realm :=
        match pos with
        | some _ => []
        | none =>
          (inlen, '@') ::
            writes_at ((inlen + 1) % unsigned_modulus) (strncpy user_realm realm_len)
      ⟨SASL_OK, out_len, copy_user ++ copy_realm⟩

/-- The bytes in `out` after the writes, from index 0, when the writes fill the
buffer from index 0 in order. -/
def canon_result.out_bytes (r : canon_result) : List Char :=
  r.writes.map Prod.snd

/-! ## `svnserve/sasl_auth.c`: `try_auth` -/

/-- An item read from the connection; the items of a list are left out. -/
inductive svn_ra_svn_item_t where
  | number (n : Nat)
  | string (s : List Char)
  | word (w : String)
  | list
deriving DecidableEq, Repr

/-- What `sasl_server_start` or `sasl_server_step` answers: the result code and
the `outlen` bytes of `out`. -/
structure sasl_reply where
  result : Int
  out : List Char
deriving DecidableEq, Repr

/-- One turn of the loop of `try_auth`, as the connection and the SASL library
answer it: the error of writing the `step` tuple, if any, the item read or the
error of reading it, and the answer of `sasl_server_step`. -/
structure auth_round where
  write_step : Option svn_error_t
  item : Except svn_error_t svn_ra_svn_item_t
  step : sasl_reply

/-- What the client, the connection and the SASL library do during one call of
`try_auth`: the tuple read first (the mechanism and the optional initial token)
or the error of reading it, the tunnel user of the server baton, the answer of
`sasl_server_start`, the turns of the loop, the errors, if any, of writing the
`failure` tuple, of the flush and of writing the `success` tuple, and base64. -/
structure auth_script where
  tuple : Except svn_error_t (String × Option (List Char))
  tunnel_user : List Char
  start : sasl_reply
  rounds : List auth_round
  write_failure : Option svn_error_t
  flush : Option svn_error_t
  write_success : Option svn_error_t
  base64_decode : List Char → List Char
  base64_encode : List Char → List Char

/-- What `try_auth` did on the connection and the SASL library. -/
inductive auth_event where
  | sasl_server_start (mech : String) (input : Option (List Char)) (result : Int)
  | sasl_server_step (input : List Char) (result : Int)
  | write_step (arg : List Char)
  | read_item (item : svn_ra_svn_item_t)
  | write_failure
  | flush
  | write_success (arg : Option (List Char))
deriving DecidableEq, Repr

/-- What a call of `try_auth` leaves: the error returned, if any, `*success`, and
what it did, oldest first. -/
structure auth_outcome where
  err : Option svn_error_t
  success : Bool
  events : List auth_event
deriving DecidableEq, Repr

/-- Source `fail_auth` (`sasl_auth.c` 128-134). -/
def fail_auth (script : auth_script) : Option svn_error_t × List auth_event :=
  match script.write_failure with
  | some e => (some e, [.write_failure])
  | none => (script.flush, [.write_failure, .flush])

/-- Source `try_auth` (`sasl_auth.c` 200-213): after the loop. -/
def try_auth_finish (script : auth_script) (reply : sasl_reply) (events : List auth_event) :
    auth_outcome :=
  if reply.result ≠ SASL_OK then
    ⟨(fail_auth script).1, false, events ++ (fail_auth script).2⟩
  else
    let arg := if reply.out.length ≠ 0 then some (script.base64_encode reply.out) else none
    ⟨script.write_success, true, events ++ [.write_success arg]⟩

/-- Source `try_auth` (`sasl_auth.c` 178-213): the loop, on the turns still to
come and the last answer of the SASL library; `none` when the answer asks for
another turn and no turn is left. -/
def try_auth_loop (script : auth_script) (use_base64 : Bool) :
    List auth_round → sasl_reply → List auth_event → Option auth_outcome
  | [], reply, events =>
    if reply.result = SASL_CONTINUE then none
    else some (try_auth_finish script reply events)
  | round :: rest, reply, events =>
    if reply.result = SASL_CONTINUE then
      let arg := if use_base64 then script.base64_encode reply.out else reply.out
      match round.write_step with
      | some e => some ⟨some e, false, events ++ [.write_step arg]⟩
      | none =>
        match round.item with
        | .error e => some ⟨some e, false, events ++ [.write_step arg]⟩
        | .ok (.string s) =>
          let input := if use_base64 then script.base64_decode s else s
          try_auth_loop script use_base64 rest round.step
            (events ++ [.write_step arg, .read_item (.string s),
              .sasl_server_step input round.step.result])
        | .ok item => some ⟨none, false, events ++ [.write_step arg, .read_item item]⟩
    else some (try_auth_finish script reply events)

/-- Source `try_auth` (`sasl_auth.c` 146-214). -/
def try_auth (script : auth_script) : Option auth_outcome :=
  match script.tuple with
  | .error e => some ⟨some e, false, []⟩
  | .ok (mech, token) =>
    let input :=
      if mech = "EXTERNAL" ∧ token = none then some script.tunnel_user
      else token.map script.base64_decode
    let use_base64 := decide (mech ≠ "CRAM-MD5")
    let events := [auth_event.sasl_server_start mech input script.start.result]
    if script.start.result ≠ SASL_OK ∧ script.start.result ≠ SASL_CONTINUE then
      some ⟨(fail_auth script).1, false, events ++ (fail_auth script).2⟩
    else try_auth_loop script use_base64 script.rounds script.start events

/-- The result codes of the calls of `sasl_server_start` and `sasl_server_step`
among the events, oldest first. -/
def sasl_results : List auth_event → List Int
  | [] => []
  | .sasl_server_start _ _ result :: rest => result :: sasl_results rest
  | .sasl_server_step _ result :: rest => result :: sasl_results rest
  | _ :: rest => sasl_results rest

/-- Whether the event is the writing of a `success` tuple. -/
def auth_event.is_write_success : auth_event → Bool
  | .write_success _ => true
  | _ => false

/-- Whether the event is the reading of an item that is not a string. -/
def auth_event.is_non_string_item : auth_event → Bool
  | .read_item (.string _) => false
  | .read_item _ => true
  | _ => false

/-- A script with the identity for base64 and no errors on the connection. -/
def sample_script (mech : String) (start : sasl_reply) (rounds : List auth_round) :
    auth_script :=
  { tuple := .ok (mech, none), tunnel_user := [], start := start, rounds := rounds,
    write_failure := none, flush := none, write_success := none,
    base64_decode := fun s => s, base64_encode := fun s => s }

/-- What holds of the outcome of `try_auth`: `*success` is TRUE exactly when the
last answer of the SASL library is SASL_OK, a `success` tuple is written only
then, and after a non-string item `*success` is FALSE and no error is returned. -/
def auth_sound (outcome : auth_outcome) : Prop :=
  (outcome.success = true ↔ (sasl_results outcome.events).getLast? = some SASL_OK) ∧
  (outcome.success = false → ∀ ev ∈ outcome.events, ev.is_write_success = false) ∧
  ((∃ ev ∈ outcome.events, ev.is_non_string_item = true) →
    outcome.success = false ∧ outcome.err = none)

/-- The events so far are those of an exchange that goes on: the last answer of
the SASL library is `result`, no `success` tuple was written and every item read
was a string. -/
def auth_going (events : List auth_event) (result : Int) : Prop :=
  (sasl_results events).getLast? = some result ∧
  ∀ ev ∈ events, ev.is_write_success = false ∧ ev.is_non_string_item = false

/-! ## Termination of the walk -/

/-- No node reachable from `id` by directory entries lies on a cycle of
directory entries. -/
def acyclic_from (db : Store) (id : svn_fs_id_t) : Prop :=
  ∀ x, reachable db id x → ¬ Relation.TransGen (has_entry db) x x

/-- A transaction `t` whose mutable root directory 1 has an entry for itself. -/
def cyclic_db : Store :=
  { nodes := [(1, ⟨.dir [("self", 1)], true⟩)],
    transactions := [("t", ⟨1, 1⟩)],
    revisions := [] }

/-! ## Stores in which the mutable nodes of a transaction form a tree -/

theorem table_get_filter {κ β : Type} [DecidableEq κ] (q : κ → Bool) (k : κ)
    (tbl : List (κ × β)) :
    table_get k (tbl.filter (fun p => q p.1)) = if q k then table_get k tbl else none := by
  induction tbl with
  | nil => simp [table_get]
  | cons hd tl ih =>
    obtain ⟨k1, v⟩ := hd
    by_cases hq : q k1 = true
    · rw [List.filter_cons_of_pos (by simpa using hq)]
      by_cases hk : k1 = k
      · subst hk; simp [table_get, hq]
      · simp [table_get, hk, ih]
    · rw [List.filter_cons_of_neg (by simpa using hq)]
      by_cases hk : k1 = k
      · subst hk; simp [table_get, hq, ih]
      · simp [table_get, hk, ih]

theorem table_get_del_self {κ β : Type} [DecidableEq κ] (k : κ) (tbl : List (κ × β)) :
    table_get k (table_del k tbl) = none := by
  have h := table_get_filter (fun x => decide (x ≠ k)) k tbl
  simpa [table_del] using h

theorem table_get_minus {β : Type} (ids : List svn_fs_id_t) (k : svn_fs_id_t)
    (tbl : List (svn_fs_id_t × β)) :
    table_get k (table_minus ids tbl) = if k ∈ ids then none else table_get k tbl := by
  have h := table_get_filter (fun x => decide (x ∉ ids)) k tbl
  by_cases hk : k ∈ ids <;> simpa [table_minus, hk] using h

theorem table_get_eq_none_iff {κ β : Type} [DecidableEq κ] (k : κ) (tbl : List (κ × β)) :
    table_get k tbl = none ↔ k ∉ table_keys tbl := by
  induction tbl with
  | nil => simp [table_get, table_keys]
  | cons hd tl ih =>
    obtain ⟨k1, v⟩ := hd
    by_cases hk : k1 = k
    · subst hk; simp [table_get, table_keys]
    · have hk2 : ¬ k = k1 := fun h => hk h.symm
      simpa [table_get, table_keys, hk, hk2] using ih

theorem table_del_of_get_none {κ β : Type} [DecidableEq κ] (k : κ) (tbl : List (κ × β))
    (h : table_get k tbl = none) : table_del k tbl = tbl := by
  induction tbl with
  | nil => rfl
  | cons hd tl ih =>
    obtain ⟨k1, v⟩ := hd
    by_cases hk : k1 = k
    · subst hk; simp [table_get] at h
    · have h2 : table_get k tl = none := by simpa [table_get, hk] using h
      have ih2 := ih h2
      simp only [table_del] at ih2 ⊢
      rw [List.filter_cons_of_pos (by simpa using hk), ih2]

theorem table_get_append {κ β : Type} [DecidableEq κ] (k : κ) (t1 t2 : List (κ × β)) :
    table_get k (t1 ++ t2) = (table_get k t1).orElse (fun _ => table_get k t2) := by
  induction t1 with
  | nil => simp [table_get]
  | cons hd tl ih =>
    obtain ⟨k1, v⟩ := hd
    by_cases hk : k1 = k
    · simp [table_get, hk]
    · simp [table_get, hk, ih]

theorem table_del_append_fresh {κ β : Type} [DecidableEq κ] (k : κ) (v : β)
    (tbl : List (κ × β)) (h : k ∉ table_keys tbl) : table_del k (tbl ++ [(k, v)]) = tbl := by
  have h1 : table_del k tbl = tbl :=
    table_del_of_get_none k tbl ((table_get_eq_none_iff k tbl).2 h)
  simp only [table_del] at h1 ⊢
  rw [List.filter_append, h1]
  simp

theorem length_le_foldr_max (names : List String) (s : String) (h : s ∈ names) :
    s.length ≤ (names.map String.length).foldr max 0 := by
  induction names with
  | nil => simp at h
  | cons hd tl ih =>
    simp only [List.map_cons, List.foldr_cons]
    rcases List.mem_cons.1 h with h1 | h1
    · subst h1; exact le_max_left _ _
    · exact le_trans (ih h1) (le_max_right _ _)

theorem fresh_txn_name_not_mem (names : List String) : fresh_txn_name names ∉ names := by
  intro h
  have h1 := length_le_foldr_max names _ h
  simp [fresh_txn_name, String.length] at h1

/-! ## Beginning, opening and closing transactions -/

theorem begin_txn_ok_inv (fs : svn_fs_t) (rev : svn_revnum_t) (db db1 : Store)
    (txn : svn_fs_txn_t) (h : svn_fs_begin_txn fs rev db = some (.ok txn, db1)) :
    fs.is_open = true ∧ ∃ root, svn_fs__rev_get_root rev ⟨db, []⟩ = .ok root ∧
      txn = ⟨fs, fresh_txn_name (table_keys db.transactions)⟩ ∧
      db1 = { db with transactions := db.transactions ++ [(txn.id, ⟨root, root⟩)] } ∧
      txn_body_begin_txn fs rev ⟨db, []⟩ = some (.ok txn, ⟨db1, [.create_txn txn.id]⟩) := by
  unfold svn_fs_begin_txn svn_fs__check_fs at h
  by_cases ho : fs.is_open = true
  · refine ⟨ho, ?_⟩
    simp only [ho, if_true] at h
    unfold svn_fs__retry_txn txn_body_begin_txn at h
    cases hr : svn_fs__rev_get_root rev ⟨db, []⟩ with
    | error e => simp [hr] at h
    | ok root =>
      simp only [hr, svn_fs__create_txn, make_txn] at h
      simp only [Option.some.injEq, Prod.mk.injEq, Except.ok.injEq] at h
      obtain ⟨h1, h2⟩ := h
      subst h1 h2
      refine ⟨root, rfl, rfl, rfl, ?_⟩
      simp [txn_body_begin_txn, hr, svn_fs__create_txn, make_txn]
  · simp [ho] at h

theorem open_txn_of_record (fs : svn_fs_t) (name : String) (db : Store) (rec : transaction)
    (ho : fs.is_open = true) (h : table_get name db.transactions = some rec) :
    svn_fs_open_txn fs name db = some (.ok ⟨fs, name⟩, db) := by
  simp [svn_fs_open_txn, svn_fs__check_fs, ho, svn_fs__retry_txn, txn_body_open_txn,
    svn_fs__get_txn, h, make_txn]

theorem open_txn_of_no_record (fs : svn_fs_t) (name : String) (db : Store)
    (ho : fs.is_open = true) (h : table_get name db.transactions = none) :
    svn_fs_open_txn fs name db = some (.error .NotFound, db) := by
  simp [svn_fs_open_txn, svn_fs__check_fs, ho, svn_fs__retry_txn, txn_body_open_txn,
    svn_fs__get_txn, h]

/-- What a successful `svn_fs_open_txn` has found and returns. -/
theorem open_txn_ok_inv (fs : svn_fs_t) (name : String) (db db1 : Store)
    (txn : svn_fs_txn_t) (h : svn_fs_open_txn fs name db = some (.ok txn, db1)) :
    fs.is_open = true ∧ table_get name db.transactions ≠ none ∧
      txn = ⟨fs, name⟩ ∧ db1 = db := by
  unfold svn_fs_open_txn svn_fs__check_fs at h
  by_cases ho : fs.is_open = true
  · simp only [ho, if_true] at h
    unfold svn_fs__retry_txn txn_body_open_txn svn_fs__get_txn at h
    cases hg : table_get name db.transactions with
    | none => simp [hg] at h
    | some rec =>
      simp only [hg, make_txn, Option.some.injEq, Prod.mk.injEq, Except.ok.injEq] at h
      exact ⟨ho, by simp, h.1.symm, h.2.symm⟩
  · simp [ho] at h

/-- C4: a successful `svn_fs_begin_txn` adds exactly one record to the
`transactions` table, under a name not in use, whose root is the root that
`svn_fs__rev_get_root` returns for the revision; the only mutating backend call is
`svn_fs__create_txn`, and the `nodes` and `revisions` tables are unchanged. -/
theorem begin_txn_creates_one_record (fs : svn_fs_t) (rev : svn_revnum_t) (db db1 : Store)
    (txn : svn_fs_txn_t) (h : svn_fs_begin_txn fs rev db = some (.ok txn, db1)) :
    ∃ root, svn_fs__rev_get_root rev ⟨db, []⟩ = .ok root ∧
      txn.id ∉ table_keys db.transactions ∧
      db1.transactions = db.transactions ++ [(txn.id, ⟨root, root⟩)] ∧
      svn_fs__get_txn txn.id ⟨db1, []⟩ = .ok (root, root) ∧
      db1.nodes = db.nodes ∧ db1.revisions = db.revisions ∧
      txn_body_begin_txn fs rev ⟨db, []⟩ = some (.ok txn, ⟨db1, [.create_txn txn.id]⟩) := by
  obtain ⟨_, root, hr, ht, hd, hb⟩ := begin_txn_ok_inv fs rev db db1 txn h
  have hfresh : txn.id ∉ table_keys db.transactions := by
    rw [ht]; exact fresh_txn_name_not_mem _
  refine ⟨root, hr, hfresh, by rw [hd], ?_, by rw [hd], by rw [hd], hb⟩
  have hnone := (table_get_eq_none_iff txn.id db.transactions).2 hfresh
  rw [hd]
  simp [svn_fs__get_txn, table_get_append, hnone, table_get]

/-- Witness of C4 on `sample_db`: beginning a transaction on revision 0. -/
theorem begin_txn_creates_one_record_witness :
    svn_fs_begin_txn sample_fs 0 sample_db = some (.ok ⟨sample_fs, "tt"⟩, sample_db_begun) ∧
    ∃ root, svn_fs__rev_get_root 0 ⟨sample_db, []⟩ = .ok root ∧
      "tt" ∉ table_keys sample_db.transactions ∧
      sample_db_begun.transactions = sample_db.transactions ++ [("tt", ⟨root, root⟩)] ∧
      svn_fs__get_txn "tt" ⟨sample_db_begun, []⟩ = .ok (root, root) ∧
      sample_db_begun.nodes = sample_db.nodes ∧
      sample_db_begun.revisions = sample_db.revisions ∧
      txn_body_begin_txn sample_fs 0 ⟨sample_db, []⟩
        = some (.ok ⟨sample_fs, "tt"⟩, ⟨sample_db_begun, [.create_txn "tt"]⟩) :=
  ⟨by decide,
   begin_txn_creates_one_record sample_fs 0 sample_db sample_db_begun ⟨sample_fs, "tt"⟩
     (by decide)⟩

/-- C5: on an open filesystem `svn_fs_open_txn` fails with NotFound exactly when
the `transactions` table has no record under the name; when there is a record it
returns the handle made of the filesystem and the name; in both cases the tables
are unchanged. -/
theorem open_txn_not_found_iff (fs : svn_fs_t) (name : String) (db : Store)
    (ho : fs.is_open = true) :
    ((∃ db1, svn_fs_open_txn fs name db = some (.error .NotFound, db1)) ↔
        table_get name db.transactions = none) ∧
    (table_get name db.transactions ≠ none →
        ∃ txn, svn_fs_open_txn fs name db = some (.ok txn, db) ∧
          txn.id = name ∧ txn.fs = fs) ∧
    (∀ r db1, svn_fs_open_txn fs name db = some (r, db1) → db1 = db) := by
  cases hg : table_get name db.transactions with
  | none =>
    have h := open_txn_of_no_record fs name db ho hg
    refine ⟨⟨fun _ => rfl, fun _ => ⟨db, h⟩⟩, fun hne => absurd rfl hne, ?_⟩
    intro r db1 h1
    rw [h] at h1
    simp only [Option.some.injEq, Prod.mk.injEq] at h1
    exact h1.2.symm
  | some rec =>
    have h := open_txn_of_record fs name db rec ho hg
    refine ⟨⟨?_, fun h1 => by simp at h1⟩, fun _ => ⟨⟨fs, name⟩, h, rfl, rfl⟩, ?_⟩
    · rintro ⟨db1, h1⟩
      rw [h] at h1
      simp at h1
    · intro r db1 h1
      rw [h] at h1
      simp only [Option.some.injEq, Prod.mk.injEq] at h1
      exact h1.2.symm

/-- Witness of C5 on `sample_db`, which has the record `t` and no record `u`. -/
theorem open_txn_not_found_iff_witness :
    sample_fs.is_open = true ∧
    svn_fs_open_txn sample_fs "u" sample_db = some (.error .NotFound, sample_db) ∧
    ∃ txn, svn_fs_open_txn sample_fs "t" sample_db = some (.ok txn, sample_db) ∧
      txn.id = "t" ∧ txn.fs = sample_fs := by
  refine ⟨by decide, by decide, ?_⟩
  exact (open_txn_not_found_iff sample_fs "t" sample_db (by decide)).2.1 (by decide)

/-- C10: the handle a successful `svn_fs_begin_txn` returns is named after the
record just created and belongs to the filesystem given; `svn_fs_open_txn` on
that name then succeeds with a handle of the same name and filesystem. -/
theorem begin_then_open_round_trip (fs : svn_fs_t) (rev : svn_revnum_t) (db db1 : Store)
    (txn : svn_fs_txn_t) (h : svn_fs_begin_txn fs rev db = some (.ok txn, db1)) :
    ∃ name rec, svn_fs_txn_name txn = .ok name ∧
      name ∉ table_keys db.transactions ∧
      db1.transactions = db.transactions ++ [(name, rec)] ∧
      svn_fs_txn_fs txn = fs ∧
      ∃ txn1, svn_fs_open_txn fs name db1 = some (.ok txn1, db1) ∧
        svn_fs_txn_name txn1 = .ok name ∧ svn_fs_txn_fs txn1 = fs := by
  obtain ⟨ho, root, hr, ht, hd, _⟩ := begin_txn_ok_inv fs rev db db1 txn h
  have hfresh : txn.id ∉ table_keys db.transactions := by
    rw [ht]; exact fresh_txn_name_not_mem _
  have hnone := (table_get_eq_none_iff txn.id db.transactions).2 hfresh
  have hget : table_get txn.id db1.transactions = some ⟨root, root⟩ := by
    rw [hd]; simp [table_get_append, hnone, table_get]
  exact ⟨txn.id, ⟨root, root⟩, rfl, hfresh, by rw [hd], by rw [ht]; rfl, ⟨fs, txn.id⟩,
    open_txn_of_record fs txn.id db1 _ ho hget, rfl, rfl⟩

/-- Witness of C10 on `sample_db`. -/
theorem begin_then_open_round_trip_witness :
    svn_fs_begin_txn sample_fs 0 sample_db = some (.ok ⟨sample_fs, "tt"⟩, sample_db_begun) ∧
    ∃ name rec, svn_fs_txn_name ⟨sample_fs, "tt"⟩ = .ok name ∧
      name ∉ table_keys sample_db.transactions ∧
      sample_db_begun.transactions = sample_db.transactions ++ [(name, rec)] ∧
      svn_fs_txn_fs ⟨sample_fs, "tt"⟩ = sample_fs ∧
      ∃ txn1, svn_fs_open_txn sample_fs name sample_db_begun = some (.ok txn1, sample_db_begun) ∧
        svn_fs_txn_name txn1 = .ok name ∧ svn_fs_txn_fs txn1 = sample_fs :=
  ⟨by decide,
   begin_then_open_round_trip sample_fs 0 sample_db sample_db_begun ⟨sample_fs, "tt"⟩
     (by decide)⟩

/-! ## The walk of `delete_from_id` -/

theorem table_minus_nil {β : Type} (tbl : List (svn_fs_id_t × β)) :
    table_minus [] tbl = tbl := by
  simp [table_minus]

theorem table_minus_minus {β : Type} (l1 l2 : List svn_fs_id_t)
    (tbl : List (svn_fs_id_t × β)) :
    table_minus l2 (table_minus l1 tbl) = table_minus (l1 ++ l2) tbl := by
  simp only [table_minus, List.filter_filter]
  congr 1
  funext p
  by_cases h1 : p.1 ∈ l1 <;> by_cases h2 : p.1 ∈ l2 <;> simp [h1, h2]

theorem table_del_eq_minus {β : Type} (id : svn_fs_id_t) (tbl : List (svn_fs_id_t × β)) :
    table_del id tbl = table_minus [id] tbl := by
  simp [table_del, table_minus]

theorem sub_nodes_of_minus (db : Store) (ids : List svn_fs_id_t) :
    sub_nodes { db with nodes := table_minus ids db.nodes } db := by
  intro i rec h
  simp only [table_get_minus] at h
  by_cases hi : i ∈ ids
  · simp [hi] at h
  · simpa [hi] using h

theorem walk_frame_sub {t t1 : trail_t} {ids : List svn_fs_id_t} (h : walk_frame t t1 ids) :
    sub_nodes t1.db t.db := by
  rw [h.2]; exact sub_nodes_of_minus _ _

theorem walk_frame_get {t t1 : trail_t} {ids : List svn_fs_id_t} (h : walk_frame t t1 ids)
    (i : svn_fs_id_t) :
    table_get i t1.db.nodes = if i ∈ ids then none else table_get i t.db.nodes := by
  rw [h.2]; exact table_get_minus _ _ _

theorem walk_frame_refl (t : trail_t) : walk_frame t t [] := by
  constructor
  · simp
  · simp [table_minus_nil]

theorem walk_frame_trans {t t1 t2 : trail_t} {l1 l2 : List svn_fs_id_t}
    (h1 : walk_frame t t1 l1) (h2 : walk_frame t1 t2 l2) : walk_frame t t2 (l1 ++ l2) := by
  constructor
  · rw [h2.1, h1.1]; simp
  · rw [h2.2, h1.2]; simp [table_minus_minus]

theorem is_mutable_in_sub {db1 db : Store} (h : sub_nodes db1 db) {i : svn_fs_id_t}
    (hm : is_mutable_in db1 i) : is_mutable_in db i := by
  obtain ⟨rec, h1, h2⟩ := hm
  exact ⟨rec, h _ _ h1, h2⟩

theorem has_entry_sub {db1 db : Store} (h : sub_nodes db1 db) {d c : svn_fs_id_t}
    (he : has_entry db1 d c) : has_entry db d c := by
  obtain ⟨rec, entries, h1, h2, h3⟩ := he
  exact ⟨rec, entries, h _ _ h1, h2, h3⟩

theorem walk_reachable_sub {db1 db : Store} (h : sub_nodes db1 db) {r i : svn_fs_id_t}
    (hw : walk_reachable db1 r i) : walk_reachable db r i := by
  induction hw with
  | here hm => exact .here (is_mutable_in_sub h hm)
  | step _ he hm ih => exact .step ih (has_entry_sub h he) (is_mutable_in_sub h hm)

theorem walk_reachable_mutable {db : Store} {r i : svn_fs_id_t}
    (hw : walk_reachable db r i) : is_mutable_in db i := by
  cases hw with
  | here hm => exact hm
  | step _ _ hm => exact hm

theorem walk_reachable_root_mutable {db : Store} {r i : svn_fs_id_t}
    (hw : walk_reachable db r i) : is_mutable_in db r := by
  induction hw with
  | here hm => exact hm
  | step _ _ _ ih => exact ih

theorem walk_reachable_trans {db : Store} {r c i : svn_fs_id_t}
    (h1 : walk_reachable db r c) (h2 : walk_reachable db c i) : walk_reachable db r i := by
  induction h2 with
  | here _ => exact h1
  | step _ he hm ih => exact .step ih he hm

theorem walk_reachable_child {db : Store} {r c i : svn_fs_id_t}
    (hr : is_mutable_in db r) (he : has_entry db r c) (h2 : walk_reachable db c i) :
    walk_reachable db r i :=
  walk_reachable_trans (.step (.here hr) he (walk_reachable_root_mutable h2)) h2

/-- One call of `delete_from_id`, by the record found under `id`. -/
theorem delete_from_id_succ (depth : Nat) (id : svn_fs_id_t) (t : trail_t) :
    delete_from_id (depth + 1) id t =
      match table_get id t.db.nodes with
      | none => some (.error .NotFound, t)
      | some rec =>
        if rec.is_mutable then
          match rec.content with
          | .dir entries =>
            match delete_entries (delete_from_id depth) entries t with
            | none => none
            | some (.error e, t1) => some (.error e, t1)
            | some (.ok (), t1) => some (svn_fs__delete_node_revision id t1)
          | .file _ => some (svn_fs__delete_node_revision id t)
        else some (.ok (), t) := by
  unfold delete_from_id
  cases hg : table_get id t.db.nodes with
  | none => simp [svn_fs__dag_get_node, hg]
  | some rec =>
    obtain ⟨content, m⟩ := rec
    cases m <;> cases content <;>
      simp [svn_fs__dag_get_node, svn_fs__dag_check_mutable, svn_fs__dag_is_directory,
        svn_fs__dag_dir_entries_skel, hg, node_content.is_directory]

/-- A call of `svn_fs__delete_node_revision` on a node that was mutable when the
walk started removes the record, if it is still there, and nothing else. -/
theorem delete_node_revision_frame (id : svn_fs_id_t) (t0 t : trail_t) (r : Except svn_error_t Unit)
    (t1 : trail_t) (hsub : sub_nodes t.db t0.db) (hm : is_mutable_in t0.db id)
    (h : svn_fs__delete_node_revision id t = (r, t1)) :
    walk_frame t t1 [id] ∧ (r = .ok () ↔ table_get id t.db.nodes ≠ none) := by
  unfold svn_fs__delete_node_revision at h
  cases hg : table_get id t.db.nodes with
  | none =>
    simp only [hg, Prod.mk.injEq] at h
    obtain ⟨h1, h2⟩ := h
    subst h1 h2
    refine ⟨⟨by simp, ?_⟩, by simp⟩
    have := table_del_of_get_none id t.db.nodes hg
    rw [table_del_eq_minus] at this
    simp [this]
  | some rec =>
    obtain ⟨rec0, hg0, hm0⟩ := hm
    have := hsub _ _ hg
    rw [hg0] at this
    have hrec : rec.is_mutable = true := by
      simp only [Option.some.injEq] at this
      rw [← this]; exact hm0
    simp only [hg, hrec, if_true, Prod.mk.injEq] at h
    obtain ⟨h1, h2⟩ := h
    subst h1 h2
    exact ⟨⟨by simp, by simp [table_del_eq_minus]⟩, by simp⟩

/-- The loop over the entries of a directory: what it leaves behind, given the
same for every call of `visit`. -/
theorem delete_entries_frame (visit : svn_fs_id_t → trail_t → Outcome trail_t Unit)
    (hv : ∀ id t r t1, visit id t = some (r, t1) →
      ∃ ids, walk_frame t t1 ids ∧ ∀ i ∈ ids, walk_reachable t.db id i)
    (entries : List (String × svn_fs_id_t)) :
    ∀ t r t1, delete_entries visit entries t = some (r, t1) →
      ∃ ids, walk_frame t t1 ids ∧
        ∀ i ∈ ids, ∃ c ∈ entries.map Prod.snd, walk_reachable t.db c i := by
  induction entries with
  | nil =>
    intro t r t1 h
    simp only [delete_entries, Option.some.injEq, Prod.mk.injEq] at h
    obtain ⟨_, h2⟩ := h
    subst h2
    exact ⟨[], walk_frame_refl t, by simp⟩
  | cons entry rest ih =>
    intro t r t1 h
    simp only [delete_entries] at h
    cases hc : visit entry.2 t with
    | none => simp [hc] at h
    | some res =>
      obtain ⟨r0, t0⟩ := res
      obtain ⟨l1, hf1, hr1⟩ := hv _ _ _ _ hc
      cases r0 with
      | error e =>
        simp only [hc, Option.some.injEq, Prod.mk.injEq] at h
        obtain ⟨_, h2⟩ := h
        subst h2
        exact ⟨l1, hf1, fun i hi => ⟨entry.2, by simp, hr1 i hi⟩⟩
      | ok u =>
        simp only [hc] at h
        obtain ⟨l2, hf2, hr2⟩ := ih _ _ _ h
        refine ⟨l1 ++ l2, walk_frame_trans hf1 hf2, ?_⟩
        intro i hi
        rcases List.mem_append.1 hi with hi | hi
        · exact ⟨entry.2, by simp, hr1 i hi⟩
        · obtain ⟨c, hc1, hc2⟩ := hr2 i hi
          refine ⟨c, ?_, walk_reachable_sub (walk_frame_sub hf1) hc2⟩
          simp only [List.map_cons, List.mem_cons]
          exact Or.inr hc1

/-- Whatever a call of `delete_from_id` returns, it has only called
`svn_fs__delete_node_revision`, on nodes reachable from `id` along mutable nodes,
and the tables have lost the records of those nodes and nothing else. -/
theorem delete_from_id_frame (depth : Nat) :
    ∀ id t r t1, delete_from_id depth id t = some (r, t1) →
      ∃ ids, walk_frame t t1 ids ∧ ∀ i ∈ ids, walk_reachable t.db id i := by
  induction depth with
  | zero => intro id t r t1 h; simp [delete_from_id] at h
  | succ depth ih =>
    intro id t r t1 h
    rw [delete_from_id_succ] at h
    cases hg : table_get id t.db.nodes with
    | none =>
      simp only [hg, Option.some.injEq, Prod.mk.injEq] at h
      obtain ⟨_, h2⟩ := h
      subst h2
      exact ⟨[], walk_frame_refl t, by simp⟩
    | some rec =>
      simp only [hg] at h
      by_cases hm : rec.is_mutable = true
      · have hmut : is_mutable_in t.db id := ⟨rec, hg, hm⟩
        simp only [hm, if_true] at h
        cases hcont : rec.content with
        | file blob =>
          simp only [hcont, Option.some.injEq] at h
          obtain ⟨hf, _⟩ := delete_node_revision_frame id t t r t1 (fun _ _ x => x) hmut h
          refine ⟨[id], hf, ?_⟩
          intro i hi
          simp only [List.mem_singleton] at hi
          subst hi
          exact .here hmut
        | dir entries =>
          simp only [hcont] at h
          cases hl : delete_entries (delete_from_id depth) entries t with
          | none => simp [hl] at h
          | some res =>
            obtain ⟨r0, t0⟩ := res
            obtain ⟨l1, hf1, hr1⟩ := delete_entries_frame _ ih entries _ _ _ hl
            have hreach : ∀ i ∈ l1, walk_reachable t.db id i := by
              intro i hi
              obtain ⟨c, hc1, hc2⟩ := hr1 i hi
              exact walk_reachable_child hmut ⟨rec, entries, hg, hcont, hc1⟩ hc2
            cases r0 with
            | error e =>
              simp only [hl, Option.some.injEq, Prod.mk.injEq] at h
              obtain ⟨_, h2⟩ := h
              subst h2
              exact ⟨l1, hf1, hreach⟩
            | ok u =>
              simp only [hl, Option.some.injEq] at h
              obtain ⟨hf, _⟩ :=
                delete_node_revision_frame id t t0 r t1 (walk_frame_sub hf1) hmut h
              refine ⟨l1 ++ [id], walk_frame_trans hf1 hf, ?_⟩
              intro i hi
              rcases List.mem_append.1 hi with hi | hi
              · exact hreach i hi
              · simp only [List.mem_singleton] at hi
                subst hi
                exact .here hmut
      · simp only [hm, Bool.false_eq_true, if_false, Option.some.injEq, Prod.mk.injEq] at h
        obtain ⟨_, h2⟩ := h
        subst h2
        exact ⟨[], walk_frame_refl t, by simp⟩

theorem present_sub {db1 db : Store} (h : sub_nodes db1 db) {i : svn_fs_id_t}
    (hp : table_get i db1.nodes ≠ none) : table_get i db.nodes ≠ none := by
  cases hg : table_get i db1.nodes with
  | none => exact absurd hg hp
  | some rec => rw [h _ _ hg]; simp

theorem get_eq_of_present {db1 db : Store} (h : sub_nodes db1 db) {i : svn_fs_id_t}
    (hp : table_get i db1.nodes ≠ none) : table_get i db1.nodes = table_get i db.nodes := by
  cases hg : table_get i db1.nodes with
  | none => exact absurd hg hp
  | some rec => rw [h _ _ hg]

theorem is_mutable_in_of_present {db1 db : Store} (h : sub_nodes db1 db) {i : svn_fs_id_t}
    (hp : table_get i db1.nodes ≠ none) (hm : is_mutable_in db i) : is_mutable_in db1 i := by
  obtain ⟨rec, h1, h2⟩ := hm
  exact ⟨rec, by rw [get_eq_of_present h hp]; exact h1, h2⟩

theorem has_entry_of_present {db1 db : Store} (h : sub_nodes db1 db) {d c : svn_fs_id_t}
    (hp : table_get d db1.nodes ≠ none) (he : has_entry db d c) : has_entry db1 d c := by
  obtain ⟨rec, entries, h1, h2, h3⟩ := he
  exact ⟨rec, entries, by rw [get_eq_of_present h hp]; exact h1, h2, h3⟩

theorem present_of_mutable {db : Store} {i : svn_fs_id_t} (hm : is_mutable_in db i) :
    table_get i db.nodes ≠ none := by
  obtain ⟨rec, h1, _⟩ := hm
  rw [h1]; simp

theorem not_mem_of_present {t t1 : trail_t} {ids : List svn_fs_id_t} (h : walk_frame t t1 ids)
    {i : svn_fs_id_t} (hp : table_get i t1.db.nodes ≠ none) : i ∉ ids := by
  intro hi
  rw [walk_frame_get h, if_pos hi] at hp
  exact hp rfl

/-- The loop over the entries of a directory, when it succeeds, given the same
for every successful call of `visit`. -/
theorem delete_entries_complete (visit : svn_fs_id_t → trail_t → Outcome trail_t Unit)
    (hv : ∀ id t t1, visit id t = some (.ok (), t1) →
      ∃ ids, walk_frame t t1 ids ∧ walk_complete t.db id ids)
    (entries : List (String × svn_fs_id_t)) :
    ∀ t t1, delete_entries visit entries t = some (.ok (), t1) →
      ∃ ids, walk_frame t t1 ids ∧ loop_complete t.db entries ids := by
  induction entries with
  | nil =>
    intro t t1 h
    simp only [delete_entries, Option.some.injEq, Prod.mk.injEq] at h
    obtain ⟨_, h2⟩ := h
    subst h2
    exact ⟨[], walk_frame_refl t,
      ⟨List.nodup_nil, by simp, by simp, by simp, by simp, by simp⟩⟩
  | cons entry rest ih =>
    intro t t1 h
    simp only [delete_entries] at h
    cases hc : visit entry.2 t with
    | none => simp [hc] at h
    | some res =>
      obtain ⟨r0, t0⟩ := res
      cases r0 with
      | error e => simp [hc] at h
      | ok u =>
        simp only [hc] at h
        obtain ⟨l1, hf1, c1⟩ := hv _ _ _ hc
        obtain ⟨l2, hf2, c2⟩ := ih _ _ h
        have hsub := walk_frame_sub hf1
        have hp2 : ∀ i ∈ l2, table_get i t0.db.nodes ≠ none :=
          fun i hi => present_of_mutable (c2.all_mutable i hi)
        refine ⟨l1 ++ l2, walk_frame_trans hf1 hf2, ?_⟩
        constructor
        · refine List.nodup_append.2 ⟨c1.nodup, c2.nodup, ?_⟩
          intro i hi1 hi2
          exact not_mem_of_present hf1 (hp2 i hi2) hi1
        · intro i hi
          rcases List.mem_append.1 hi with hi | hi
          · exact c1.all_mutable i hi
          · exact is_mutable_in_sub hsub (c2.all_mutable i hi)
        · intro c hc
          simp only [List.map_cons, List.mem_cons] at hc
          rcases hc with hc | hc
          · subst hc; exact c1.root_present
          · exact present_sub hsub (c2.child_present c hc)
        · intro c hc hm
          simp only [List.map_cons, List.mem_cons] at hc
          rcases hc with hc | hc
          · subst hc; exact List.mem_append_left _ (c1.root_mem hm)
          · exact List.mem_append_right _
              (c2.child_mem c hc (is_mutable_in_of_present hsub (c2.child_present c hc) hm))
        · intro i hi c he
          rcases List.mem_append.1 hi with hi | hi
          · exact c1.entry_present i hi c he
          · exact present_sub hsub
              (c2.entry_present i hi c (has_entry_of_present hsub (hp2 i hi) he))
        · intro i hi c he hm
          rcases List.mem_append.1 hi with hi | hi
          · exact List.mem_append_left _ (c1.entry_mem i hi c he hm)
          · have he2 := has_entry_of_present hsub (hp2 i hi) he
            exact List.mem_append_right _
              (c2.entry_mem i hi c he2
                (is_mutable_in_of_present hsub (c2.entry_present i hi c he2) hm))

/-- A successful call of `delete_from_id`. -/
theorem delete_from_id_complete (depth : Nat) :
    ∀ id t t1, delete_from_id depth id t = some (.ok (), t1) →
      ∃ ids, walk_frame t t1 ids ∧ walk_complete t.db id ids := by
  induction depth with
  | zero => intro id t t1 h; simp [delete_from_id] at h
  | succ depth ih =>
    intro id t t1 h
    rw [delete_from_id_succ] at h
    cases hg : table_get id t.db.nodes with
    | none => simp [hg] at h
    | some rec =>
      have hpres : table_get id t.db.nodes ≠ none := by rw [hg]; simp
      simp only [hg] at h
      by_cases hm : rec.is_mutable = true
      · have hmut : is_mutable_in t.db id := ⟨rec, hg, hm⟩
        simp only [hm, if_true] at h
        cases hcont : rec.content with
        | file blob =>
          simp only [hcont, Option.some.injEq] at h
          obtain ⟨hf, _⟩ := delete_node_revision_frame id t t _ t1 (fun _ _ x => x) hmut h
          have hno : ∀ c, ¬ has_entry t.db id c := by
            rintro c ⟨rec1, entries, h1, h2, _⟩
            rw [hg] at h1
            simp only [Option.some.injEq] at h1
            subst h1
            rw [hcont] at h2
            cases h2
          refine ⟨[id], hf, ⟨List.nodup_singleton id, ?_, hpres, fun _ => by simp, ?_, ?_⟩⟩
          · intro i hi
            simp only [List.mem_singleton] at hi
            subst hi; exact hmut
          · intro i hi c he
            simp only [List.mem_singleton] at hi
            subst hi; exact absurd he (hno c)
          · intro i hi c he
            simp only [List.mem_singleton] at hi
            subst hi; exact absurd he (hno c)
        | dir entries =>
          simp only [hcont] at h
          cases hl : delete_entries (delete_from_id depth) entries t with
          | none => simp [hl] at h
          | some res =>
            obtain ⟨r0, t0⟩ := res
            cases r0 with
            | error e => simp [hl] at h
            | ok u =>
              obtain ⟨l1, hf1, c1⟩ := delete_entries_complete _ ih entries _ _ hl
              simp only [hl, Option.some.injEq] at h
              obtain ⟨hf, hok⟩ :=
                delete_node_revision_frame id t t0 _ t1 (walk_frame_sub hf1) hmut h
              have hid : id ∉ l1 := not_mem_of_present hf1 (hok.1 rfl)
              have hentries : ∀ c, has_entry t.db id c → c ∈ entries.map Prod.snd := by
                rintro c ⟨rec1, entries1, h1, h2, h3⟩
                rw [hg] at h1
                simp only [Option.some.injEq] at h1
                subst h1
                rw [hcont] at h2
                simp only [node_content.dir.injEq] at h2
                subst h2
                exact h3
              refine ⟨l1 ++ [id], walk_frame_trans hf1 hf, ⟨?_, ?_, hpres, fun _ => by simp, ?_, ?_⟩⟩
              · refine List.nodup_append.2 ⟨c1.nodup, List.nodup_singleton id, ?_⟩
                intro i hi1 hi2
                simp only [List.mem_singleton] at hi2
                subst hi2; exact hid hi1
              · intro i hi
                rcases List.mem_append.1 hi with hi | hi
                · exact c1.all_mutable i hi
                · simp only [List.mem_singleton] at hi
                  subst hi; exact hmut
              · intro i hi c he
                rcases List.mem_append.1 hi with hi | hi
                · exact c1.entry_present i hi c he
                · simp only [List.mem_singleton] at hi
                  subst hi; exact c1.child_present c (hentries c he)
              · intro i hi c he hmc
                rcases List.mem_append.1 hi with hi | hi
                · exact List.mem_append_left _ (c1.entry_mem i hi c he hmc)
                · simp only [List.mem_singleton] at hi
                  subst hi
                  exact List.mem_append_left _ (c1.child_mem c (hentries c he) hmc)
      · simp only [hm, Bool.false_eq_true, if_false, Option.some.injEq, Prod.mk.injEq] at h
        obtain ⟨_, h2⟩ := h
        subst h2
        refine ⟨[], walk_frame_refl t, ⟨List.nodup_nil, by simp, hpres, ?_, by simp, by simp⟩⟩
        rintro ⟨rec1, h1, h2⟩
        rw [hg] at h1
        simp only [Option.some.injEq] at h1
        subst h1
        exact absurd h2 hm

theorem walk_frame_unique {t t1 : trail_t} {l1 l2 : List svn_fs_id_t}
    (h1 : walk_frame t t1 l1) (h2 : walk_frame t t1 l2) : l1 = l2 := by
  have h := h1.1.symm.trans h2.1
  have h3 := List.append_cancel_left h
  have hinj : Function.Injective backend_call.delete_node_revision := by
    intro a b hab
    cases hab
    rfl
  exact List.map_injective_iff.2 hinj h3

/-- A successful call of `delete_from_id id` has called
`svn_fs__delete_node_revision` once on each node reachable from `id` along
mutable nodes and on no other node. -/
theorem delete_from_id_ok (depth : Nat) (id : svn_fs_id_t) (t t1 : trail_t)
    (h : delete_from_id depth id t = some (.ok (), t1)) :
    ∃ ids, walk_frame t t1 ids ∧ ids.Nodup ∧ (∀ i, i ∈ ids ↔ walk_reachable t.db id i) ∧
      table_get id t.db.nodes ≠ none := by
  obtain ⟨ids, hf, hc⟩ := delete_from_id_complete depth id t t1 h
  obtain ⟨ids1, hf1, hr⟩ := delete_from_id_frame depth id t _ t1 h
  have := walk_frame_unique hf1 hf
  subst this
  refine ⟨ids1, hf, hc.nodup, fun i => ⟨hr i, ?_⟩, hc.root_present⟩
  intro hw
  induction hw with
  | here hm => exact hc.root_mem hm
  | step _ he hm ih => exact hc.entry_mem _ ih _ he hm

/-! ## How often the walk deletes a node -/

theorem entry_refs_append (db : Store) (c : svn_fs_id_t) (l1 l2 : List svn_fs_id_t) :
    entry_refs db c (l1 ++ l2) = entry_refs db c l1 + entry_refs db c l2 := by
  induction l1 with
  | nil => simp [entry_refs]
  | cons d rest ih => simp [entry_refs, ih, Nat.add_assoc]

theorem entries_for_sub {db1 db : Store} (h : sub_nodes db1 db) (c : svn_fs_id_t)
    {d : svn_fs_id_t} (hp : table_get d db1.nodes ≠ none) :
    entries_for db1 c d = entries_for db c d := by
  unfold entries_for
  rw [get_eq_of_present h hp]

theorem entry_refs_sub {db1 db : Store} (h : sub_nodes db1 db) (c : svn_fs_id_t)
    (ids : List svn_fs_id_t) (hp : ∀ d ∈ ids, table_get d db1.nodes ≠ none) :
    entry_refs db1 c ids = entry_refs db c ids := by
  induction ids with
  | nil => rfl
  | cons d rest ih =>
    simp only [entry_refs]
    rw [entries_for_sub h c (hp d (by simp)), ih (fun x hx => hp x (by simp [hx]))]

theorem has_entry_of_entries_for {db : Store} {c d : svn_fs_id_t}
    (h : entries_for db c d ≠ 0) : has_entry db d c := by
  unfold entries_for at h
  cases hg : table_get d db.nodes with
  | none => simp [hg] at h
  | some rec =>
    cases hc : rec.content with
    | file blob => simp [hg, hc] at h
    | dir entries =>
      simp only [hg, hc] at h
      exact ⟨rec, entries, hg, hc, List.count_pos_iff.1 (Nat.pos_of_ne_zero h)⟩

theorem entry_refs_eq_zero (db : Store) (c : svn_fs_id_t) (ids : List svn_fs_id_t)
    (h : ∀ d ∈ ids, ¬ has_entry db d c) : entry_refs db c ids = 0 := by
  induction ids with
  | nil => rfl
  | cons d rest ih =>
    simp only [entry_refs]
    have h1 : entries_for db c d = 0 := by
      by_contra hne
      exact h d (by simp) (has_entry_of_entries_for hne)
    rw [h1, ih (fun x hx => h x (by simp [hx]))]

/-- The loop over the entries of a directory, when it succeeds: how often each
mutable node was deleted. -/
theorem delete_entries_count (visit : svn_fs_id_t → trail_t → Outcome trail_t Unit)
    (hv : ∀ id t t1, visit id t = some (.ok (), t1) →
      ∃ ids, walk_frame t t1 ids ∧ walk_complete t.db id ids ∧ walk_count t.db id ids)
    (entries : List (String × svn_fs_id_t)) :
    ∀ t t1, delete_entries visit entries t = some (.ok (), t1) →
      ∃ ids, walk_frame t t1 ids ∧ loop_complete t.db entries ids ∧
        loop_count t.db entries ids := by
  induction entries with
  | nil =>
    intro t t1 h
    simp only [delete_entries, Option.some.injEq, Prod.mk.injEq] at h
    obtain ⟨_, h2⟩ := h
    subst h2
    refine ⟨[], walk_frame_refl t,
      ⟨List.nodup_nil, by simp, by simp, by simp, by simp, by simp⟩, ?_⟩
    intro c _
    simp [entry_refs]
  | cons entry rest ih =>
    intro t t1 h
    have hv1 : ∀ id t t1, visit id t = some (.ok (), t1) →
        ∃ ids, walk_frame t t1 ids ∧ walk_complete t.db id ids := by
      intro id t t1 hvis
      obtain ⟨ids, h1, h2, _⟩ := hv id t t1 hvis
      exact ⟨ids, h1, h2⟩
    obtain ⟨ids, hf, hcomp⟩ := delete_entries_complete visit hv1 (entry :: rest) t t1 h
    refine ⟨ids, hf, hcomp, ?_⟩
    simp only [delete_entries] at h
    cases hc : visit entry.2 t with
    | none => simp [hc] at h
    | some res =>
      obtain ⟨r0, t0⟩ := res
      cases r0 with
      | error e => simp [hc] at h
      | ok u =>
        simp only [hc] at h
        obtain ⟨l1, hf1, c1, n1⟩ := hv _ _ _ hc
        obtain ⟨l2, hf2, c2, n2⟩ := ih _ _ h
        have hids := walk_frame_unique hf (walk_frame_trans hf1 hf2)
        subst hids
        have hsub := walk_frame_sub hf1
        have hp2 : ∀ i ∈ l2, table_get i t0.db.nodes ≠ none :=
          fun i hi => present_of_mutable (c2.all_mutable i hi)
        intro c hm
        have hrefs : entry_refs t0.db c l2 = entry_refs t.db c l2 :=
          entry_refs_sub hsub c l2 hp2
        have hl2 : l2.count c = (rest.map Prod.snd).count c + entry_refs t.db c l2 := by
          by_cases hpc : table_get c t0.db.nodes = none
          · have hz1 : l2.count c = 0 :=
              List.count_eq_zero.2 (fun hi => hp2 c hi hpc)
            have hz2 : (rest.map Prod.snd).count c = 0 :=
              List.count_eq_zero.2 (fun hi => c2.child_present c hi hpc)
            have hz3 : entry_refs t0.db c l2 = 0 :=
              entry_refs_eq_zero _ _ _ (fun d hd he => c2.entry_present d hd c he hpc)
            rw [hz1, hz2, ← hrefs, hz3]
          · rw [← hrefs]
            exact n2 c (is_mutable_in_of_present hsub hpc hm)
        have hl1 := n1 c hm
        rw [List.count_append, entry_refs_append, hl1, hl2]
        simp only [List.map_cons, List.count_cons, beq_iff_eq]
        omega

/-- A successful call of `delete_from_id`: how often each mutable node was
deleted. -/
theorem delete_from_id_count (depth : Nat) :
    ∀ id t t1, delete_from_id depth id t = some (.ok (), t1) →
      ∃ ids, walk_frame t t1 ids ∧ walk_complete t.db id ids ∧ walk_count t.db id ids := by
  induction depth with
  | zero => intro id t t1 h; simp [delete_from_id] at h
  | succ depth ih =>
    intro id t t1 h
    obtain ⟨ids, hf, hcomp⟩ := delete_from_id_complete (depth + 1) id t t1 h
    refine ⟨ids, hf, hcomp, ?_⟩
    rw [delete_from_id_succ] at h
    cases hg : table_get id t.db.nodes with
    | none => simp [hg] at h
    | some rec =>
      simp only [hg] at h
      by_cases hm : rec.is_mutable = true
      · have hmut : is_mutable_in t.db id := ⟨rec, hg, hm⟩
        simp only [hm, if_true] at h
        cases hcont : rec.content with
        | file blob =>
          simp only [hcont, Option.some.injEq] at h
          obtain ⟨hf0, _⟩ := delete_node_revision_frame id t t _ t1 (fun _ _ x => x) hmut h
          have hids := walk_frame_unique hf hf0
          subst hids
          intro c _
          simp only [List.count_singleton, beq_iff_eq, entry_refs, entries_for, hg, hcont]
          omega
        | dir entries =>
          simp only [hcont] at h
          cases hl : delete_entries (delete_from_id depth) entries t with
          | none => simp [hl] at h
          | some res =>
            obtain ⟨r0, t0⟩ := res
            cases r0 with
            | error e => simp [hl] at h
            | ok u =>
              obtain ⟨l1, hf1, _, n1⟩ := delete_entries_count _ ih entries _ _ hl
              simp only [hl, Option.some.injEq] at h
              obtain ⟨hf0, _⟩ :=
                delete_node_revision_frame id t t0 _ t1 (walk_frame_sub hf1) hmut h
              have hids := walk_frame_unique hf (walk_frame_trans hf1 hf0)
              subst hids
              intro c hmc
              rw [List.count_append, entry_refs_append, n1 c hmc]
              simp only [List.count_singleton, beq_iff_eq, entry_refs, entries_for, hg, hcont]
              omega
      · simp only [hm, Bool.false_eq_true, if_false, Option.some.injEq, Prod.mk.injEq] at h
        obtain ⟨_, h2⟩ := h
        subst h2
        have hids := walk_frame_unique hf (walk_frame_refl t)
        subst hids
        intro c hmc
        have hne : id ≠ c := by
          rintro rfl
          obtain ⟨rec1, h1, h2⟩ := hmc
          rw [hg] at h1
          simp only [Option.some.injEq] at h1
          subst h1
          exact hm h2
        simp [entry_refs, hne]

/-! ## Aborting transactions -/

theorem deleted_ids_append (l1 l2 : List backend_call) :
    deleted_ids (l1 ++ l2) = deleted_ids l1 ++ deleted_ids l2 := by
  induction l1 with
  | nil => simp [deleted_ids]
  | cons c rest ih => cases c <;> simp [deleted_ids, ih]

theorem deleted_ids_map (ids : List svn_fs_id_t) :
    deleted_ids (ids.map backend_call.delete_node_revision) = ids := by
  induction ids with
  | nil => simp [deleted_ids]
  | cons i rest ih => simp [deleted_ids, ih]

/-- The body of an abort, by the record found under the name of the handle. -/
theorem txn_body_abort_txn_eq (depth : Nat) (txn : svn_fs_txn_t) (t : trail_t) :
    txn_body_abort_txn depth txn t =
      match table_get txn.id t.db.transactions with
      | none => some (.error .NotFound, t)
      | some rec =>
        match delete_from_id depth rec.root_id t with
        | none => none
        | some (.error e, t1) => some (.error e, t1)
        | some (.ok (), t1) => some (svn_fs__delete_txn txn.id t1) := by
  unfold txn_body_abort_txn svn_fs_txn_name svn_fs__get_txn
  cases hg : table_get txn.id t.db.transactions <;> simp [hg]

/-- Whatever the body of an abort returns, the `nodes` table has lost the records
the walk called `svn_fs__delete_node_revision` on, all of them reachable from the
root of the transaction along mutable nodes, the `transactions` table has lost at
most the record of the transaction, and the `revisions` table is unchanged. -/
theorem txn_body_abort_txn_frame (depth : Nat) (txn : svn_fs_txn_t) (db : Store)
    (r : Except svn_error_t Unit) (trail : trail_t)
    (h : txn_body_abort_txn depth txn ⟨db, []⟩ = some (r, trail)) :
    ∃ ids, deleted_ids trail.log = ids ∧
      trail.db.nodes = table_minus ids db.nodes ∧
      trail.db.revisions = db.revisions ∧
      (trail.db.transactions = db.transactions ∨
        trail.db.transactions = table_del txn.id db.transactions) ∧
      ∀ i ∈ ids, ∃ rec, table_get txn.id db.transactions = some rec ∧
        walk_reachable db rec.root_id i := by
  rw [txn_body_abort_txn_eq] at h
  cases hg : table_get txn.id db.transactions with
  | none =>
    simp only [hg, Option.some.injEq, Prod.mk.injEq] at h
    obtain ⟨_, h2⟩ := h
    subst h2
    exact ⟨[], by simp [deleted_ids], by simp [table_minus_nil], rfl, Or.inl rfl, by simp⟩
  | some rec =>
    simp only [hg] at h
    cases hw : delete_from_id depth rec.root_id ⟨db, []⟩ with
    | none => simp [hw] at h
    | some res =>
      obtain ⟨r0, t0⟩ := res
      obtain ⟨ids, hf, hr⟩ := delete_from_id_frame depth _ _ _ _ hw
      have hlog : deleted_ids t0.log = ids := by
        rw [hf.1]; simp [deleted_ids_map, deleted_ids]
      have hreach : ∀ i ∈ ids, ∃ rec1, some rec = some rec1 ∧ walk_reachable db rec1.root_id i :=
        fun i hi => ⟨rec, rfl, hr i hi⟩
      cases r0 with
      | error e =>
        simp only [hw, Option.some.injEq, Prod.mk.injEq] at h
        obtain ⟨_, h2⟩ := h
        subst h2
        exact ⟨ids, hlog, by rw [hf.2], by rw [hf.2], Or.inl (by rw [hf.2]), hreach⟩
      | ok u =>
        simp only [hw, Option.some.injEq] at h
        unfold svn_fs__delete_txn at h
        cases hg1 : table_get txn.id t0.db.transactions with
        | none =>
          simp only [hg1, Prod.mk.injEq] at h
          obtain ⟨_, h2⟩ := h
          subst h2
          refine ⟨ids, ?_, by simp [hf.2], by simp [hf.2], Or.inl (by simp [hf.2]), hreach⟩
          simp [deleted_ids_append, hlog, deleted_ids]
        | some rec1 =>
          simp only [hg1, Prod.mk.injEq] at h
          obtain ⟨_, h2⟩ := h
          subst h2
          refine ⟨ids, ?_, by simp [hf.2], by simp [hf.2], Or.inr (by simp [hf.2]), hreach⟩
          simp [deleted_ids_append, hlog, deleted_ids]

/-- A successful abort: the walk has called `svn_fs__delete_node_revision` once
on each node reachable from the root of the transaction along mutable nodes, then
`svn_fs__delete_txn` was called, and the tables published are the tables before
the call without those records. -/
theorem abort_txn_ok_inv (depth : Nat) (txn : svn_fs_txn_t) (db db1 : Store)
    (h : svn_fs_abort_txn depth txn db = some (.ok (), db1)) :
    ∃ rec ids, table_get txn.id db.transactions = some rec ∧ ids.Nodup ∧
      (∀ i, i ∈ ids ↔ walk_reachable db rec.root_id i) ∧
      db1 = { nodes := table_minus ids db.nodes,
              transactions := table_del txn.id db.transactions,
              revisions := db.revisions } ∧
      txn_body_abort_txn depth txn ⟨db, []⟩ = some (.ok (),
        ⟨db1, ids.map backend_call.delete_node_revision ++ [.delete_txn txn.id]⟩) ∧
      walk_count db rec.root_id ids := by
  unfold svn_fs_abort_txn svn_fs__retry_txn at h
  rw [txn_body_abort_txn_eq] at h ⊢
  cases hg : table_get txn.id db.transactions with
  | none => simp [hg] at h
  | some rec =>
    simp only [hg] at h ⊢
    cases hw : delete_from_id depth rec.root_id ⟨db, []⟩ with
    | none => simp [hw] at h
    | some res =>
      obtain ⟨r0, t0⟩ := res
      cases r0 with
      | error e => simp [hw] at h
      | ok u =>
        obtain ⟨ids, hf, hnd, hiff, _⟩ := delete_from_id_ok depth _ _ _ hw
        have hg1 : table_get txn.id t0.db.transactions = some rec := by rw [hf.2]; exact hg
        have hdel : svn_fs__delete_txn txn.id t0 = (.ok (),
            ⟨{ nodes := table_minus ids db.nodes,
               transactions := table_del txn.id db.transactions,
               revisions := db.revisions },
             ids.map backend_call.delete_node_revision ++ [.delete_txn txn.id]⟩) := by
          unfold svn_fs__delete_txn
          have hg2 : table_get txn.id db.transactions = some rec := hg
          simp [hg1, hf.1, hf.2, hg2]
        obtain ⟨ids1, hf1, _, hcount⟩ := delete_from_id_count depth _ _ _ hw
        have hids := walk_frame_unique hf1 hf
        subst hids
        simp only [hw, hdel, Option.some.injEq, Prod.mk.injEq, true_and] at h
        subst h
        exact ⟨rec, ids1, rfl, hnd, hiff, rfl, by simp [hdel], hcount⟩

/-- An abort on a handle whose record does not exist. -/
theorem abort_txn_of_no_record (depth : Nat) (txn : svn_fs_txn_t) (db : Store)
    (h : table_get txn.id db.transactions = none) :
    svn_fs_abort_txn depth txn db = some (.error .NotFound, db) := by
  unfold svn_fs_abort_txn svn_fs__retry_txn
  rw [txn_body_abort_txn_eq]
  simp [h]

/-- On tables in which a directory that has an entry for a mutable node is
itself mutable, the nodes reachable along mutable nodes are the mutable nodes
reachable. -/
theorem walk_reachable_iff_of_closed (db : Store) (root : svn_fs_id_t)
    (hcl : ∀ d c, has_entry db d c → is_mutable_in db c → is_mutable_in db d)
    (i : svn_fs_id_t) :
    walk_reachable db root i ↔ reachable db root i ∧ is_mutable_in db i := by
  constructor
  · intro hw
    refine ⟨?_, walk_reachable_mutable hw⟩
    induction hw with
    | here _ => exact .here
    | step _ he _ ih => exact .step ih he
  · rintro ⟨hr, hm⟩
    induction hr with
    | here => exact .here hm
    | step _ he ih => exact .step (ih (hcl _ _ he hm)) he hm

/-- C1: whatever `svn_fs_abort_txn` returns, every call of
`svn_fs__delete_node_revision` its body made was on a node-revision that
`svn_fs__dag_check_mutable` reports mutable on the tables before the abort, and
every node-revision that was immutable before the abort is under the same ID,
unchanged, in the tables of the trail and in the tables after the abort. -/
theorem abort_txn_never_deletes_immutable (depth : Nat) (txn : svn_fs_txn_t) (db db1 : Store)
    (r : Except svn_error_t Unit) (h : svn_fs_abort_txn depth txn db = some (r, db1)) :
    ∃ trail, txn_body_abort_txn depth txn ⟨db, []⟩ = some (r, trail) ∧
      (∀ i ∈ deleted_ids trail.log, ∀ b,
        svn_fs__dag_check_mutable ⟨i, b⟩ ⟨db, []⟩ = .ok true) ∧
      (∀ i rec, table_get i db.nodes = some rec → rec.is_mutable = false →
        table_get i trail.db.nodes = some rec ∧ table_get i db1.nodes = some rec) := by
  unfold svn_fs_abort_txn svn_fs__retry_txn at h
  cases hb : txn_body_abort_txn depth txn ⟨db, []⟩ with
  | none => simp [hb] at h
  | some res =>
    obtain ⟨r0, trail⟩ := res
    obtain ⟨ids, hlog, hnodes, _, _, hreach⟩ := txn_body_abort_txn_frame depth txn db r0 trail hb
    have hmut : ∀ i ∈ ids, is_mutable_in db i := by
      intro i hi
      obtain ⟨rec, _, hw⟩ := hreach i hi
      exact walk_reachable_mutable hw
    have hkeep : ∀ i rec, table_get i db.nodes = some rec → rec.is_mutable = false →
        table_get i trail.db.nodes = some rec := by
      intro i rec hg hm
      have hni : i ∉ ids := by
        intro hi
        obtain ⟨rec1, h1, h2⟩ := hmut i hi
        rw [hg] at h1
        simp only [Option.some.injEq] at h1
        subst h1
        rw [hm] at h2
        cases h2
      rw [hnodes, table_get_minus, if_neg hni]
      exact hg
    have hr : r0 = r ∧ (db1 = trail.db ∨ db1 = db) := by
      cases r0 with
      | error e =>
        simp only [hb, Option.some.injEq, Prod.mk.injEq] at h
        exact ⟨h.1, Or.inr h.2.symm⟩
      | ok u =>
        simp only [hb, Option.some.injEq, Prod.mk.injEq] at h
        exact ⟨h.1, Or.inl h.2.symm⟩
    obtain ⟨hr1, hr2⟩ := hr
    subst hr1
    refine ⟨trail, rfl, ?_, ?_⟩
    · intro i hi b
      rw [hlog] at hi
      obtain ⟨rec, h1, h2⟩ := hmut i hi
      simp [svn_fs__dag_check_mutable, h1, h2]
    · intro i rec hg hm
      refine ⟨hkeep i rec hg hm, ?_⟩
      rcases hr2 with hr2 | hr2
      · rw [hr2]; exact hkeep i rec hg hm
      · rw [hr2]; exact hg

/-- Witness of C1: the abort of transaction `t` of `sample_db`. -/
theorem abort_txn_never_deletes_immutable_witness :
    ∃ trail, txn_body_abort_txn 3 sample_txn ⟨sample_db, []⟩ = some (.ok (), trail) ∧
      (∀ i ∈ deleted_ids trail.log, ∀ b,
        svn_fs__dag_check_mutable ⟨i, b⟩ ⟨sample_db, []⟩ = .ok true) ∧
      (∀ i rec, table_get i sample_db.nodes = some rec → rec.is_mutable = false →
        table_get i trail.db.nodes = some rec ∧
        table_get i sample_db_aborted.nodes = some rec) :=
  abort_txn_never_deletes_immutable 3 sample_txn sample_db sample_db_aborted (.ok ())
    (by decide)

/-- C2: on tables that keep the invariant of the store that no immutable
directory has an entry for a mutable node, a successful `svn_fs_abort_txn` leaves
the `nodes` table without exactly the mutable node-revisions reachable from the
root of the transaction: each of them has no record afterwards and every other
record is as it was; the `transactions` table is the old one without the record
of the transaction, and the `revisions` table is as it was. -/
theorem abort_txn_deletes_mutable_reachable (depth : Nat) (txn : svn_fs_txn_t)
    (db db1 : Store)
    (hinv : ∀ d c, has_entry db d c → is_mutable_in db c → is_mutable_in db d)
    (h : svn_fs_abort_txn depth txn db = some (.ok (), db1)) :
    ∃ rec ids, table_get txn.id db.transactions = some rec ∧ ids.Nodup ∧
      (∀ i, i ∈ ids ↔ reachable db rec.root_id i ∧ is_mutable_in db i) ∧
      db1.nodes = table_minus ids db.nodes ∧
      (∀ i, reachable db rec.root_id i → is_mutable_in db i →
        table_get i db1.nodes = none) ∧
      (∀ i, ¬ (reachable db rec.root_id i ∧ is_mutable_in db i) →
        table_get i db1.nodes = table_get i db.nodes) ∧
      db1.transactions = table_del txn.id db.transactions ∧
      db1.revisions = db.revisions := by
  obtain ⟨rec, ids, hg, hnd, hiff, hdb, _⟩ := abort_txn_ok_inv depth txn db db1 h
  have hiff1 : ∀ i, i ∈ ids ↔ reachable db rec.root_id i ∧ is_mutable_in db i := by
    intro i
    rw [hiff i]
    exact walk_reachable_iff_of_closed db rec.root_id hinv i
  refine ⟨rec, ids, hg, hnd, hiff1, by rw [hdb], ?_, ?_, by rw [hdb], by rw [hdb]⟩
  · intro i hr hm
    rw [hdb]
    simp only [table_get_minus, if_pos ((hiff1 i).2 ⟨hr, hm⟩)]
  · intro i hn
    rw [hdb]
    simp only [table_get_minus, if_neg (fun hi => hn ((hiff1 i).1 hi))]

/-- In `sample_db` every directory that has an entry for a mutable node is mutable. -/
theorem sample_db_closed :
    ∀ d c, has_entry sample_db d c → is_mutable_in sample_db c → is_mutable_in sample_db d := by
  rintro d c ⟨rec, entries, hg, hc, hmem⟩ ⟨rc, hgc, hmc⟩
  refine ⟨rec, hg, ?_⟩
  simp only [sample_db, table_get] at hg hgc
  split_ifs at hg <;> simp only [Option.some.injEq] at hg <;> subst hg
  all_goals first
    | rfl
    | (exfalso; simp at hc; done)
    | (exfalso
       simp only [node_content.dir.injEq] at hc
       subst hc
       simp only [List.map_cons, List.map_nil, List.mem_cons, List.mem_singleton,
         List.not_mem_nil, or_false] at hmem
       rcases hmem with rfl | rfl <;> simp at hgc <;> subst hgc <;> simp at hmc)

/-- Witness of C2: transaction `t` of `sample_db` has made the path `/a/b`
mutable, three levels deep; its abort removes the three mutable nodes on that
path and leaves the four immutable nodes. -/
theorem abort_txn_deletes_mutable_reachable_witness :
    svn_fs_abort_txn 3 sample_txn sample_db = some (.ok (), sample_db_aborted) ∧
    sample_db.nodes.length = 7 ∧ sample_db_aborted.nodes.length = 4 ∧
    ∃ rec ids, table_get sample_txn.id sample_db.transactions = some rec ∧ ids.Nodup ∧
      (∀ i, i ∈ ids ↔ reachable sample_db rec.root_id i ∧ is_mutable_in sample_db i) ∧
      sample_db_aborted.nodes = table_minus ids sample_db.nodes ∧
      (∀ i, reachable sample_db rec.root_id i → is_mutable_in sample_db i →
        table_get i sample_db_aborted.nodes = none) ∧
      (∀ i, ¬ (reachable sample_db rec.root_id i ∧ is_mutable_in sample_db i) →
        table_get i sample_db_aborted.nodes = table_get i sample_db.nodes) ∧
      sample_db_aborted.transactions = table_del sample_txn.id sample_db.transactions ∧
      sample_db_aborted.revisions = sample_db.revisions :=
  ⟨by decide, by decide, by decide,
   abort_txn_deletes_mutable_reachable 3 sample_txn sample_db sample_db_aborted
     sample_db_closed (by decide)⟩

/-- Outside the invariant of the store the walk deletes less than the mutable
nodes reachable: `shared_db` has an immutable root directory with an entry for
the mutable node 5; the walk stops at the root, the abort succeeds and node 5 is
still in the `nodes` table. -/
theorem abort_txn_keeps_mutable_below_immutable :
    table_get "t" shared_db.transactions = some ⟨0, 0⟩ ∧
    reachable shared_db 0 5 ∧ is_mutable_in shared_db 5 ∧
    svn_fs_abort_txn 1 ⟨sample_fs, "t"⟩ shared_db = some (.ok (), shared_db_aborted) ∧
    table_get 5 shared_db_aborted.nodes = some ⟨.file 9, true⟩ := by
  refine ⟨by decide, ?_, ?_, by decide, by decide⟩
  · exact .step .here ⟨⟨.dir [("f", 5)], false⟩, [("f", 5)], by decide, rfl, by decide⟩
  · exact ⟨⟨.file 9, true⟩, by decide, rfl⟩

/-- C3: on an open filesystem, for a revision whose root has an immutable
node-revision, `svn_fs_begin_txn` succeeds and `svn_fs_abort_txn` on the handle it
returns succeeds and leaves the tables exactly as they were before the
transaction was begun. -/
theorem begin_then_abort_restores (fs : svn_fs_t) (rev : svn_revnum_t) (db : Store)
    (root : svn_fs_id_t) (rec : node_revision) (ho : fs.is_open = true)
    (hrev : svn_fs__rev_get_root rev ⟨db, []⟩ = .ok root)
    (hroot : table_get root db.nodes = some rec) (himm : rec.is_mutable = false) :
    ∃ txn db1, svn_fs_begin_txn fs rev db = some (.ok txn, db1) ∧
      ∀ depth, svn_fs_abort_txn (depth + 1) txn db1 = some (.ok (), db) := by
  have hfresh := fresh_txn_name_not_mem (table_keys db.transactions)
  have hnone := (table_get_eq_none_iff _ db.transactions).2 hfresh
  refine ⟨⟨fs, fresh_txn_name (table_keys db.transactions)⟩,
    { db with transactions := db.transactions ++
        [(fresh_txn_name (table_keys db.transactions), ⟨root, root⟩)] }, ?_, ?_⟩
  · simp [svn_fs_begin_txn, svn_fs__check_fs, ho, svn_fs__retry_txn, txn_body_begin_txn,
      hrev, svn_fs__create_txn, make_txn]
  · intro depth
    unfold svn_fs_abort_txn svn_fs__retry_txn
    rw [txn_body_abort_txn_eq]
    simp only [table_get_append, hnone, table_get, if_true, Option.orElse]
    rw [delete_from_id_succ]
    simp only [hroot, himm, Bool.false_eq_true, if_false, svn_fs__delete_txn,
      table_get_append, hnone, table_get, if_true, Option.orElse,
      table_del_append_fresh _ _ _ hfresh]

/-- Witness of C3: a transaction begun on revision 0 of `sample_db` and aborted. -/
theorem begin_then_abort_restores_witness :
    ∃ txn db1, svn_fs_begin_txn sample_fs 0 sample_db = some (.ok txn, db1) ∧
      ∀ depth, svn_fs_abort_txn (depth + 1) txn db1 = some (.ok (), sample_db) :=
  begin_then_abort_restores sample_fs 0 sample_db 0 ⟨.dir [("a", 10), ("s", 11)], false⟩
    (by decide) (by decide) (by decide) rfl

/-- C6: `svn_fs_abort_txn` on a handle whose record does not exist fails with
NotFound and leaves the tables unchanged; this is the case of a second abort
after a successful first one. -/
theorem abort_txn_twice_not_found (depth : Nat) (txn : svn_fs_txn_t) (db : Store) :
    (table_get txn.id db.transactions = none →
      svn_fs_abort_txn depth txn db = some (.error .NotFound, db)) ∧
    (∀ depth1 db1, svn_fs_abort_txn depth1 txn db = some (.ok (), db1) →
      svn_fs_abort_txn depth txn db1 = some (.error .NotFound, db1)) := by
  refine ⟨abort_txn_of_no_record depth txn db, ?_⟩
  intro depth1 db1 h
  obtain ⟨rec, ids, _, _, _, hdb, _⟩ := abort_txn_ok_inv depth1 txn db db1 h
  apply abort_txn_of_no_record
  rw [hdb]
  exact table_get_del_self _ _

/-- Witness of C6: transaction `t` of `sample_db` aborted twice. -/
theorem abort_txn_twice_not_found_witness :
    svn_fs_abort_txn 3 sample_txn sample_db = some (.ok (), sample_db_aborted) ∧
    svn_fs_abort_txn 3 sample_txn sample_db_aborted
      = some (.error .NotFound, sample_db_aborted) :=
  ⟨by decide,
   (abort_txn_twice_not_found 3 sample_txn sample_db).2 3 sample_db_aborted (by decide)⟩

/-- C7: `svn_fs_close_txn` on a handle that is alive returns success and the
tables it was given: the record of the transaction, every node-revision and every
revision are as before. The handle is freed and no other handle is. The
transaction can still be opened by name: `svn_fs_open_txn` with the filesystem and
the ID of the closed handle succeeds when the record exists and the filesystem is
open, and whenever it succeeds the handle it returns has that filesystem and ID,
and `svn_fs_abort_txn` through it does on the tables left by the close what the
abort through the closed handle would have done in place of the close. -/
theorem close_txn_keeps_tables (txn_pool : apr_pool_t) (handles : txn_handles)
    (txn : svn_fs_txn_t) (db : Store) (hlive : table_get txn_pool handles = some txn) :
    ∃ handles1, svn_fs_close_txn txn_pool handles db = some (.ok (), (db, handles1)) ∧
      table_get txn_pool handles1 = none ∧
      (∀ p, p ≠ txn_pool → table_get p handles1 = table_get p handles) ∧
      (∀ rec, table_get txn.id db.transactions = some rec → txn.fs.is_open = true →
        ∃ txn1, svn_fs_open_txn txn.fs txn.id db = some (.ok txn1, db)) ∧
      (∀ txn1 db2, svn_fs_open_txn txn.fs txn.id db = some (.ok txn1, db2) →
        db2 = db ∧ table_get txn.id db2.transactions ≠ none ∧
        svn_fs_txn_name txn1 = .ok txn.id ∧ svn_fs_txn_fs txn1 = txn.fs ∧
        ∀ depth, svn_fs_abort_txn depth txn1 db2 = svn_fs_abort_txn depth txn db) := by
  refine ⟨table_del txn_pool handles, ?_, table_get_del_self _ _, ?_, ?_, ?_⟩
  · simp [svn_fs_close_txn, hlive]
  · intro p hp
    have h := table_get_filter (fun x => decide (x ≠ txn_pool)) p handles
    simpa [table_del, hp] using h
  · intro rec hrec ho
    exact ⟨⟨txn.fs, txn.id⟩, open_txn_of_record txn.fs txn.id db rec ho hrec⟩
  · intro txn1 db2 hopen
    obtain ⟨_, hrec, htxn, hdb⟩ := open_txn_ok_inv txn.fs txn.id db db2 txn1 hopen
    subst htxn hdb
    exact ⟨rfl, hrec, rfl, rfl, fun _ => rfl⟩

/-- Witness of C7: the handle of transaction `t` of `sample_db` is closed; the
transaction is opened by name and aborted through the new handle. -/
theorem close_txn_keeps_tables_witness :
    svn_fs_close_txn 4 [(4, sample_txn), (6, sample_txn)] sample_db
      = some (.ok (), (sample_db, [(6, sample_txn)])) ∧
    svn_fs_open_txn sample_fs "t" sample_db = some (.ok sample_txn, sample_db) ∧
    svn_fs_abort_txn 3 sample_txn sample_db = some (.ok (), sample_db_aborted) ∧
    ∃ handles1, svn_fs_close_txn 4 [(4, sample_txn), (6, sample_txn)] sample_db
        = some (.ok (), (sample_db, handles1)) ∧
      table_get 4 handles1 = none ∧
      (∀ p, p ≠ 4 → table_get p handles1 = table_get p [(4, sample_txn), (6, sample_txn)]) ∧
      (∀ rec, table_get sample_txn.id sample_db.transactions = some rec →
        sample_txn.fs.is_open = true →
        ∃ txn1, svn_fs_open_txn sample_txn.fs sample_txn.id sample_db
          = some (.ok txn1, sample_db)) ∧
      (∀ txn1 db2, svn_fs_open_txn sample_txn.fs sample_txn.id sample_db
          = some (.ok txn1, db2) →
        db2 = sample_db ∧ table_get sample_txn.id db2.transactions ≠ none ∧
        svn_fs_txn_name txn1 = .ok sample_txn.id ∧ svn_fs_txn_fs txn1 = sample_txn.fs ∧
        ∀ depth, svn_fs_abort_txn depth txn1 db2
          = svn_fs_abort_txn depth sample_txn sample_db) :=
  ⟨by decide, by decide, by decide,
   close_txn_keeps_tables 4 [(4, sample_txn), (6, sample_txn)] sample_txn sample_db
     (by decide)⟩

theorem list_transactions_eq (fs : svn_fs_t) (db : Store) (ho : fs.is_open = true) :
    svn_fs_list_transactions fs db = some (.ok (table_keys db.transactions), db) := by
  simp [svn_fs_list_transactions, svn_fs__check_fs, ho, svn_fs__retry_txn,
    txn_body_list_transactions, svn_fs__get_txn_list]

theorem mem_table_keys_iff {κ β : Type} [DecidableEq κ] (k : κ) (tbl : List (κ × β)) :
    k ∈ table_keys tbl ↔ table_get k tbl ≠ none := by
  rw [Ne, table_get_eq_none_iff, not_not]

/-- C11: on an open filesystem `svn_fs_list_transactions` returns the names of
the records of the `transactions` table, a name being listed exactly when
`svn_fs__get_txn` finds a record under it, and leaves the tables unchanged; the
name of the handle a successful `svn_fs_begin_txn` returns is listed afterwards,
and the name of a handle on which `svn_fs_abort_txn` succeeded is not. -/
theorem list_transactions_exact (fs : svn_fs_t) (db : Store) (ho : fs.is_open = true) :
    (∃ names, svn_fs_list_transactions fs db = some (.ok names, db) ∧
      names = db.transactions.map Prod.fst ∧
      ∀ name, name ∈ names ↔ ∃ roots, svn_fs__get_txn name ⟨db, []⟩ = .ok roots) ∧
    (∀ rev txn db1, svn_fs_begin_txn fs rev db = some (.ok txn, db1) →
      ∃ names, svn_fs_list_transactions fs db1 = some (.ok names, db1) ∧ txn.id ∈ names) ∧
    (∀ depth txn db1, svn_fs_abort_txn depth txn db = some (.ok (), db1) →
      ∃ names, svn_fs_list_transactions fs db1 = some (.ok names, db1) ∧ txn.id ∉ names) := by
  refine ⟨⟨_, list_transactions_eq fs db ho, rfl, ?_⟩, ?_, ?_⟩
  · intro name
    rw [mem_table_keys_iff]
    unfold svn_fs__get_txn
    cases hg : table_get name db.transactions with
    | none => simp
    | some rec => simp
  · intro rev txn db1 h
    obtain ⟨_, root, _, _, hd, _⟩ := begin_txn_ok_inv fs rev db db1 txn h
    refine ⟨_, list_transactions_eq fs db1 ho, ?_⟩
    rw [hd]
    simp [table_keys]
  · intro depth txn db1 h
    obtain ⟨rec, ids, _, _, _, hdb, _⟩ := abort_txn_ok_inv depth txn db db1 h
    refine ⟨_, list_transactions_eq fs db1 ho, ?_⟩
    rw [← table_get_eq_none_iff, hdb]
    exact table_get_del_self _ _

/-- Witness of C11 on `sample_db`: `t` is listed, `tt` is listed once begun, and
`t` is no longer listed once aborted. -/
theorem list_transactions_exact_witness :
    svn_fs_list_transactions sample_fs sample_db = some (.ok ["t"], sample_db) ∧
    (∃ names, svn_fs_list_transactions sample_fs sample_db_begun
        = some (.ok names, sample_db_begun) ∧ "tt" ∈ names) ∧
    (∃ names, svn_fs_list_transactions sample_fs sample_db_aborted
        = some (.ok names, sample_db_aborted) ∧ "t" ∉ names) :=
  ⟨by decide,
   (list_transactions_exact sample_fs sample_db (by decide)).2.1 0 ⟨sample_fs, "tt"⟩
     sample_db_begun (by decide),
   (list_transactions_exact sample_fs sample_db (by decide)).2.2 3 sample_txn
     sample_db_aborted (by decide)⟩

/-- C12: when the revision table has no root for the revision number,
`svn_fs_begin_txn` returns an error and no handle, its body makes no backend
call, so `svn_fs__create_txn` is not reached, and the tables are unchanged; on an
open filesystem the error is the NotFound of the lookup. -/
theorem begin_txn_unknown_revision (fs : svn_fs_t) (rev : svn_revnum_t) (db : Store)
    (e : svn_error_t) (hrev : svn_fs__rev_get_root rev ⟨db, []⟩ = .error e) :
    e = .NotFound ∧
    txn_body_begin_txn fs rev ⟨db, []⟩ = some (.error .NotFound, ⟨db, []⟩) ∧
    (∃ e1, svn_fs_begin_txn fs rev db = some (.error e1, db)) ∧
    (fs.is_open = true → svn_fs_begin_txn fs rev db = some (.error .NotFound, db)) := by
  have he : e = .NotFound := by
    unfold svn_fs__rev_get_root at hrev
    by_cases hneg : rev < 0
    · simp only [hneg, if_true, Except.error.injEq] at hrev
      exact hrev.symm
    · simp only [hneg, if_false] at hrev
      split at hrev
      · cases hrev
      · simp only [Except.error.injEq] at hrev
        exact hrev.symm
  subst he
  have hb : txn_body_begin_txn fs rev ⟨db, []⟩ = some (.error .NotFound, ⟨db, []⟩) := by
    simp [txn_body_begin_txn, hrev]
  refine ⟨rfl, hb, ?_, ?_⟩
  · by_cases ho : fs.is_open = true
    · exact ⟨.NotFound, by simp [svn_fs_begin_txn, svn_fs__check_fs, ho, svn_fs__retry_txn, hb]⟩
    · exact ⟨.FsNotOpen, by simp [svn_fs_begin_txn, svn_fs__check_fs, ho]⟩
  · intro ho
    simp [svn_fs_begin_txn, svn_fs__check_fs, ho, svn_fs__retry_txn, hb]

/-- Witness of C12: `sample_db` has revision 0 only. -/
theorem begin_txn_unknown_revision_witness :
    svn_fs__rev_get_root 1 ⟨sample_db, []⟩ = .error .NotFound ∧
    svn_fs__rev_get_root (-1) ⟨sample_db, []⟩ = .error .NotFound ∧
    svn_fs_begin_txn sample_fs 1 sample_db = some (.error .NotFound, sample_db) :=
  ⟨by decide, by decide,
   (begin_txn_unknown_revision sample_fs 1 sample_db .NotFound (by decide)).2.2.2 (by decide)⟩

/-! ## The order of the deletions -/

theorem ordered_from_append (db : Store) (l1 l2 : List svn_fs_id_t) :
    ∀ seen, ordered_from db seen (l1 ++ l2) ↔
      ordered_from db seen l1 ∧ ordered_from db (seen ++ l1) l2 := by
  induction l1 with
  | nil => intro seen; simp [ordered_from]
  | cons d rest ih =>
    intro seen
    rw [List.cons_append]
    simp only [ordered_from]
    rw [ih]
    simp only [List.append_assoc, List.singleton_append, and_assoc]

theorem ordered_from_mono (db : Store) (ids : List svn_fs_id_t) :
    ∀ seen seen1, (∀ x ∈ seen, x ∈ seen1) → ordered_from db seen ids →
      ordered_from db seen1 ids := by
  induction ids with
  | nil => intro _ _ _ _; trivial
  | cons d rest ih =>
    intro seen seen1 hsub h
    refine ⟨fun c he => ⟨(h.1 c he).1, fun hm => hsub c ((h.1 c he).2 hm)⟩, ?_⟩
    apply ih (seen ++ [d]) (seen1 ++ [d]) _ h.2
    intro x hx
    rcases List.mem_append.1 hx with hx | hx
    · exact List.mem_append_left _ (hsub x hx)
    · exact List.mem_append_right _ hx

theorem ordered_from_sub {db1 db : Store} (hsub : sub_nodes db1 db) (ids : List svn_fs_id_t) :
    ∀ seen, (∀ d ∈ ids, table_get d db1.nodes ≠ none) → ordered_from db1 seen ids →
      ordered_from db seen ids := by
  induction ids with
  | nil => intro _ _ _; trivial
  | cons d rest ih =>
    intro seen hp h
    have hd : table_get d db1.nodes ≠ none := hp d (by simp)
    refine ⟨?_, ih _ (fun x hx => hp x (by simp [hx])) h.2⟩
    intro c he
    have he1 := has_entry_of_present hsub hd he
    have hc := (h.1 c he1).1
    exact ⟨present_sub hsub hc, fun hm => (h.1 c he1).2 (is_mutable_in_of_present hsub hc hm)⟩

theorem ordered_from_split (db : Store) (ids : List svn_fs_id_t) :
    ∀ seen, ordered_from db seen ids → ∀ l1 d l2, ids = l1 ++ d :: l2 →
      ∀ c, has_entry db d c →
        table_get c db.nodes ≠ none ∧ (is_mutable_in db c → c ∈ seen ++ l1) := by
  intro seen h l1 d l2 heq c he
  subst heq
  have h1 := ((ordered_from_append db l1 (d :: l2) seen).1 h).2
  exact h1.1 c he

/-- The loop over the entries of a directory, whatever it returns: the nodes
deleted are in post-order, and when the loop succeeds every entry has a record
and every mutable entry was deleted. -/
theorem delete_entries_ordered (visit : svn_fs_id_t → trail_t → Outcome trail_t Unit)
    (hv : ∀ id t r t1, visit id t = some (r, t1) →
      ∃ ids, walk_frame t t1 ids ∧ (∀ i ∈ ids, is_mutable_in t.db i) ∧
        ordered_from t.db [] ids ∧
        (r = .ok () → table_get id t.db.nodes ≠ none ∧ (is_mutable_in t.db id → id ∈ ids)))
    (entries : List (String × svn_fs_id_t)) :
    ∀ t r t1, delete_entries visit entries t = some (r, t1) →
      ∃ ids, walk_frame t t1 ids ∧ (∀ i ∈ ids, is_mutable_in t.db i) ∧
        ordered_from t.db [] ids ∧
        (r = .ok () → ∀ c ∈ entries.map Prod.snd,
          table_get c t.db.nodes ≠ none ∧ (is_mutable_in t.db c → c ∈ ids)) := by
  induction entries with
  | nil =>
    intro t r t1 h
    simp only [delete_entries, Option.some.injEq, Prod.mk.injEq] at h
    obtain ⟨_, h2⟩ := h
    subst h2
    exact ⟨[], walk_frame_refl t, by simp, trivial, by simp⟩
  | cons entry rest ih =>
    intro t r t1 h
    simp only [delete_entries] at h
    cases hc : visit entry.2 t with
    | none => simp [hc] at h
    | some res =>
      obtain ⟨r0, t0⟩ := res
      obtain ⟨l1, hf1, hm1, ho1, hr1⟩ := hv _ _ _ _ hc
      cases r0 with
      | error e =>
        simp only [hc, Option.some.injEq, Prod.mk.injEq] at h
        obtain ⟨h1, h2⟩ := h
        subst h1 h2
        exact ⟨l1, hf1, hm1, ho1, fun hcontra => by cases hcontra⟩
      | ok u =>
        simp only [hc] at h
        obtain ⟨l2, hf2, hm2, ho2, hr2⟩ := ih _ _ _ h
        have hsub := walk_frame_sub hf1
        have hp2 : ∀ i ∈ l2, table_get i t0.db.nodes ≠ none :=
          fun i hi => present_of_mutable (hm2 i hi)
        refine ⟨l1 ++ l2, walk_frame_trans hf1 hf2, ?_, ?_, ?_⟩
        · intro i hi
          rcases List.mem_append.1 hi with hi | hi
          · exact hm1 i hi
          · exact is_mutable_in_sub hsub (hm2 i hi)
        · refine (ordered_from_append _ l1 l2 []).2 ⟨ho1, ?_⟩
          exact ordered_from_mono _ l2 [] _ (by simp) (ordered_from_sub hsub l2 [] hp2 ho2)
        · intro hok c hmem
          simp only [List.map_cons, List.mem_cons] at hmem
          rcases hmem with hmem | hmem
          · subst hmem
            exact ⟨(hr1 rfl).1, fun hm => List.mem_append_left _ ((hr1 rfl).2 hm)⟩
          · have hc2 := hr2 hok c hmem
            exact ⟨present_sub hsub hc2.1, fun hm =>
              List.mem_append_right _ (hc2.2 (is_mutable_in_of_present hsub hc2.1 hm))⟩

/-- Whatever a call of `delete_from_id` returns, the nodes it has called
`svn_fs__delete_node_revision` on are in post-order. -/
theorem delete_from_id_ordered (depth : Nat) :
    ∀ id t r t1, delete_from_id depth id t = some (r, t1) →
      ∃ ids, walk_frame t t1 ids ∧ (∀ i ∈ ids, is_mutable_in t.db i) ∧
        ordered_from t.db [] ids ∧
        (r = .ok () → table_get id t.db.nodes ≠ none ∧ (is_mutable_in t.db id → id ∈ ids)) := by
  induction depth with
  | zero => intro id t r t1 h; simp [delete_from_id] at h
  | succ depth ih =>
    intro id t r t1 h
    rw [delete_from_id_succ] at h
    cases hg : table_get id t.db.nodes with
    | none =>
      simp only [hg, Option.some.injEq, Prod.mk.injEq] at h
      obtain ⟨h1, h2⟩ := h
      subst h1 h2
      exact ⟨[], walk_frame_refl t, by simp, trivial, fun hcontra => by cases hcontra⟩
    | some rec =>
      have hpres : (some rec : Option node_revision) ≠ none := by simp
      simp only [hg] at h
      by_cases hm : rec.is_mutable = true
      · have hmut : is_mutable_in t.db id := ⟨rec, hg, hm⟩
        simp only [hm, if_true] at h
        cases hcont : rec.content with
        | file blob =>
          simp only [hcont, Option.some.injEq] at h
          obtain ⟨hf, _⟩ := delete_node_revision_frame id t t r t1 (fun _ _ x => x) hmut h
          refine ⟨[id], hf, ?_, ⟨?_, trivial⟩, fun _ => ⟨hpres, fun _ => by simp⟩⟩
          · intro i hi
            simp only [List.mem_singleton] at hi
            subst hi; exact hmut
          · rintro c ⟨rec1, entries, h1, h2, _⟩
            rw [hg] at h1
            simp only [Option.some.injEq] at h1
            subst h1
            rw [hcont] at h2
            cases h2
        | dir entries =>
          simp only [hcont] at h
          cases hl : delete_entries (delete_from_id depth) entries t with
          | none => simp [hl] at h
          | some res =>
            obtain ⟨r0, t0⟩ := res
            obtain ⟨l1, hf1, hm1, ho1, hr1⟩ := delete_entries_ordered _ ih entries _ _ _ hl
            cases r0 with
            | error e =>
              simp only [hl, Option.some.injEq, Prod.mk.injEq] at h
              obtain ⟨h1, h2⟩ := h
              subst h1 h2
              exact ⟨l1, hf1, hm1, ho1, fun hcontra => by cases hcontra⟩
            | ok u =>
              simp only [hl, Option.some.injEq] at h
              obtain ⟨hf, _⟩ :=
                delete_node_revision_frame id t t0 r t1 (walk_frame_sub hf1) hmut h
              refine ⟨l1 ++ [id], walk_frame_trans hf1 hf, ?_, ?_,
                fun _ => ⟨hpres, fun _ => by simp⟩⟩
              · intro i hi
                rcases List.mem_append.1 hi with hi | hi
                · exact hm1 i hi
                · simp only [List.mem_singleton] at hi
                  subst hi; exact hmut
              · refine (ordered_from_append _ l1 [id] []).2 ⟨ho1, ?_, trivial⟩
                rintro c ⟨rec1, entries1, h1, h2, h3⟩
                rw [hg] at h1
                simp only [Option.some.injEq] at h1
                subst h1
                rw [hcont] at h2
                simp only [node_content.dir.injEq] at h2
                subst h2
                simpa using hr1 rfl c h3
      · simp only [hm, Bool.false_eq_true, if_false, Option.some.injEq, Prod.mk.injEq] at h
        obtain ⟨h1, h2⟩ := h
        subst h1 h2
        refine ⟨[], walk_frame_refl t, by simp, trivial, fun _ => ⟨hpres, ?_⟩⟩
        rintro ⟨rec1, h1, h2⟩
        rw [hg] at h1
        simp only [Option.some.injEq] at h1
        subst h1
        exact absurd h2 hm

theorem split_at_last {α : Type} (l : List α) :
    ∀ (l1 l2 : List α) (x y : α), x ∉ l → l1 ++ x :: l2 = l ++ [y] →
      l1 = l ∧ x = y ∧ l2 = [] := by
  induction l with
  | nil =>
    intro l1 l2 x y _ h
    cases l1 with
    | nil =>
      simp only [List.nil_append, List.cons.injEq] at h
      exact ⟨rfl, h.1, h.2⟩
    | cons b l1 =>
      simp only [List.cons_append, List.nil_append, List.cons.injEq] at h
      have h2 := congrArg List.length h.2
      simp at h2
  | cons a rest ih =>
    intro l1 l2 x y hx h
    cases l1 with
    | nil =>
      simp only [List.nil_append, List.cons_append, List.cons.injEq] at h
      exact absurd (by rw [h.1]; simp) hx
    | cons b l1 =>
      simp only [List.cons_append, List.cons.injEq] at h
      obtain ⟨h1, h2, h3⟩ := ih l1 l2 x y (fun hmem => hx (by simp [hmem])) h.2
      exact ⟨by rw [h.1, h1], h2, h3⟩

theorem delete_txn_not_mem_map (name : String) (ids : List svn_fs_id_t) :
    backend_call.delete_txn name ∉ ids.map backend_call.delete_node_revision := by
  simp

/-- C16: whatever the body of an abort returns, each node it called
`svn_fs__delete_node_revision` on was deleted after every entry of it had been
visited with success: every entry has a record and every mutable entry was
deleted earlier. A call of `svn_fs__delete_txn` is on the record of the
transaction, is the last call made, and is made only when the walk from the root
has returned success; the calls before it are the deletions of the walk. -/
theorem abort_txn_post_order (depth : Nat) (txn : svn_fs_txn_t) (db : Store)
    (r : Except svn_error_t Unit) (trail : trail_t)
    (h : txn_body_abort_txn depth txn ⟨db, []⟩ = some (r, trail)) :
    (∀ l1 d l2, deleted_ids trail.log = l1 ++ d :: l2 → ∀ c, has_entry db d c →
      table_get c db.nodes ≠ none ∧ (is_mutable_in db c → c ∈ l1)) ∧
    (∀ l1 name l2, trail.log = l1 ++ backend_call.delete_txn name :: l2 →
      name = txn.id ∧ l2 = [] ∧
      ∃ rec t1, table_get txn.id db.transactions = some rec ∧
        delete_from_id depth rec.root_id ⟨db, []⟩ = some (.ok (), t1) ∧
        l1 = t1.log ∧ l1 = (deleted_ids l1).map backend_call.delete_node_revision) := by
  rw [txn_body_abort_txn_eq] at h
  cases hg : table_get txn.id db.transactions with
  | none =>
    simp only [hg, Option.some.injEq, Prod.mk.injEq] at h
    obtain ⟨_, h2⟩ := h
    subst h2
    constructor
    · intro l1 d l2 hsplit
      simp [deleted_ids] at hsplit
    · intro l1 name l2 hsplit
      simp at hsplit
  | some rec =>
    simp only [hg] at h
    cases hw : delete_from_id depth rec.root_id ⟨db, []⟩ with
    | none => simp [hw] at h
    | some res =>
      obtain ⟨r0, t0⟩ := res
      obtain ⟨ids, hf, _, hord, _⟩ := delete_from_id_ordered depth _ _ _ _ hw
      have hlog0 : t0.log = ids.map backend_call.delete_node_revision := by
        rw [hf.1]; simp
      have hsplit_ids : ∀ l1 d l2, ids = l1 ++ d :: l2 → ∀ c, has_entry db d c →
          table_get c db.nodes ≠ none ∧ (is_mutable_in db c → c ∈ l1) := by
        intro l1 d l2 heq c he
        simpa using ordered_from_split db ids [] hord l1 d l2 heq c he
      cases r0 with
      | error e =>
        simp only [hw, Option.some.injEq, Prod.mk.injEq] at h
        obtain ⟨_, h2⟩ := h
        subst h2
        constructor
        · rw [hlog0, deleted_ids_map]; exact hsplit_ids
        · intro l1 name l2 hsplit
          have hmem : backend_call.delete_txn name ∈ t0.log := by rw [hsplit]; simp
          rw [hlog0] at hmem
          exact absurd hmem (delete_txn_not_mem_map name ids)
      | ok u =>
        simp only [hw, Option.some.injEq] at h
        have hlog : trail.log = ids.map backend_call.delete_node_revision
            ++ [backend_call.delete_txn txn.id] := by
          unfold svn_fs__delete_txn at h
          cases hg1 : table_get txn.id t0.db.transactions with
          | none =>
            simp only [hg1, Prod.mk.injEq] at h
            rw [← h.2, hlog0]
          | some rec1 =>
            simp only [hg1, Prod.mk.injEq] at h
            rw [← h.2, hlog0]
        constructor
        · rw [hlog]
          simp only [deleted_ids_append, deleted_ids_map, deleted_ids, List.append_nil]
          exact hsplit_ids
        · intro l1 name l2 hsplit
          rw [hlog] at hsplit
          obtain ⟨h1, h2, h3⟩ :=
            split_at_last _ l1 l2 _ _ (delete_txn_not_mem_map name ids) hsplit.symm
          simp only [backend_call.delete_txn.injEq] at h2
          refine ⟨h2, h3, rec, t0, rfl, hw, by rw [h1, hlog0], ?_⟩
          rw [h1, deleted_ids_map]

/-- Witness of C16: the abort of transaction `t` of `sample_db` deletes `/a/b`
(21), then `/a` (12), then the root (1), then the record of the transaction. -/
theorem abort_txn_post_order_witness :
    txn_body_abort_txn 3 sample_txn ⟨sample_db, []⟩ = some (.ok (), ⟨sample_db_aborted,
      [.delete_node_revision 21, .delete_node_revision 12, .delete_node_revision 1,
       .delete_txn "t"]⟩) ∧
    (∀ c, has_entry sample_db 12 c →
      table_get c sample_db.nodes ≠ none ∧ (is_mutable_in sample_db c → c ∈ [21])) ∧
    (∃ rec t1, table_get sample_txn.id sample_db.transactions = some rec ∧
      delete_from_id 3 rec.root_id ⟨sample_db, []⟩ = some (.ok (), t1) ∧
      [backend_call.delete_node_revision 21, .delete_node_revision 12,
        .delete_node_revision 1] = t1.log) := by
  have hb : txn_body_abort_txn 3 sample_txn ⟨sample_db, []⟩ = some (.ok (), ⟨sample_db_aborted,
      [.delete_node_revision 21, .delete_node_revision 12, .delete_node_revision 1,
       .delete_txn "t"]⟩) := by decide
  have h := abort_txn_post_order 3 sample_txn sample_db _ _ hb
  refine ⟨hb, ?_, ?_⟩
  · exact h.1 [21] 12 [1] (by decide)
  · obtain ⟨_, _, rec, t1, h1, h2, h3, _⟩ :=
      h.2 [.delete_node_revision 21, .delete_node_revision 12, .delete_node_revision 1]
        "t" [] rfl
    exact ⟨rec, t1, h1, h2, h3⟩

/-! ## `dav_svn_compare_locktoken` -/

/-- C15, the code at a failing input: `dav_svn_compare_locktoken` returns 0 for
the two different lock tokens `a` and `b`; it returns 0 for every pair. -/
theorem compare_locktoken_always_zero :
    (⟨"a"⟩ : dav_locktoken) ≠ ⟨"b"⟩ ∧
    dav_svn_compare_locktoken ⟨"a"⟩ ⟨"b"⟩ = 0 ∧
    ∀ lt1 lt2, dav_svn_compare_locktoken lt1 lt2 = 0 :=
  ⟨by decide, rfl, fun _ _ => rfl⟩

/-! ## `svn_client_checkout` -/

theorem do_checkout_calls_drive_ra (env : checkout_env) (revision : svn_revnum_t) :
    do_checkout_calls (checkout_drive_ra env revision).2 = [revision] ∧
    xml_parse_calls (checkout_drive_ra env revision).2 = [] := by
  unfold checkout_drive_ra
  cases env.do_checkout revision <;> cases env.close <;> cases env.has_storage_callback <;>
    simp [do_checkout_calls, xml_parse_calls]

/-- C13, as amended: in a checkout from a repository (`xml_src` NULL) with a
`revision` other than `SVN_INVALID_REVNUM` and a non-zero `tm`, neither
`get_dated_revision` nor `do_checkout` nor the XML parse is called and an error is
returned: the error of the first step that fails among fetching the editor,
initialising the RA libraries, finding the RA library and authenticating, after
which no further call is made, and the error of mutually exclusive arguments when
all four succeed. In a checkout from an xml file `tm` is not looked at: once the
editor is fetched and the file is open, the XML parse is run once, with
`revision`, and its error, if any, is what the call returns. -/
theorem checkout_revision_and_time (env : checkout_env) (revision : svn_revnum_t)
    (tm : apr_time_t) (hrev : revision ≠ SVN_INVALID_REVNUM) (htm : tm ≠ 0) :
    (svn_client_checkout env revision tm none).1 ≠ none ∧
    do_checkout_calls (svn_client_checkout env revision tm none).2 = [] ∧
    xml_parse_calls (svn_client_checkout env revision tm none).2 = [] ∧
    (∀ t, checkout_call.get_dated_revision t ∉ (svn_client_checkout env revision tm none).2) ∧
    (∀ e, env.wc_get_checkout_editor = some e →
      svn_client_checkout env revision tm none
        = (some e, [.wc_get_checkout_editor revision])) ∧
    (∀ e, env.wc_get_checkout_editor = none → env.ra_init_ra_libs = some e →
      svn_client_checkout env revision tm none
        = (some e, [.wc_get_checkout_editor revision, .ra_init_ra_libs])) ∧
    (∀ e, env.wc_get_checkout_editor = none → env.ra_init_ra_libs = none →
      env.ra_get_ra_library = some e →
      svn_client_checkout env revision tm none
        = (some e, [.wc_get_checkout_editor revision, .ra_init_ra_libs,
            .ra_get_ra_library])) ∧
    (∀ e, env.wc_get_checkout_editor = none → env.ra_init_ra_libs = none →
      env.ra_get_ra_library = none → env.client_authenticate = some e →
      svn_client_checkout env revision tm none
        = (some e, [.wc_get_checkout_editor revision, .ra_init_ra_libs,
            .ra_get_ra_library, .client_authenticate])) ∧
    (env.wc_get_checkout_editor = none → env.ra_init_ra_libs = none →
      env.ra_get_ra_library = none → env.client_authenticate = none →
      svn_client_checkout env revision tm none
        = (some .MutuallyExclusiveArguments,
           [.wc_get_checkout_editor revision, .ra_init_ra_libs, .ra_get_ra_library,
            .client_authenticate])) ∧
    (∀ xml, svn_client_checkout env revision tm (some xml)
      = svn_client_checkout env revision 0 (some xml)) ∧
    (∀ xml, env.wc_get_checkout_editor = none → env.apr_file_open = none →
      (svn_client_checkout env revision tm (some xml)).1 = env.xml_auto_parse revision ∧
      xml_parse_calls (svn_client_checkout env revision tm (some xml)).2 = [revision] ∧
      do_checkout_calls (svn_client_checkout env revision tm (some xml)).2 = [] ∧
      (∀ t, checkout_call.get_dated_revision t
        ∉ (svn_client_checkout env revision tm (some xml)).2)) := by
  have hsel : checkout_select_revision env revision tm
      = (some .MutuallyExclusiveArguments, []) := by
    simp [checkout_select_revision, hrev, htm]
  refine ⟨?_, ?_, ?_, ?_, ?_, ?_, ?_, ?_, ?_, fun _ => rfl, ?_⟩
  · unfold svn_client_checkout checkout_from_ra
    cases env.wc_get_checkout_editor <;> cases env.ra_init_ra_libs <;>
      cases env.ra_get_ra_library <;> cases env.client_authenticate <;> simp [hsel]
  · unfold svn_client_checkout checkout_from_ra
    cases env.wc_get_checkout_editor <;> cases env.ra_init_ra_libs <;>
      cases env.ra_get_ra_library <;> cases env.client_authenticate <;>
      simp [hsel, do_checkout_calls]
  · unfold svn_client_checkout checkout_from_ra
    cases env.wc_get_checkout_editor <;> cases env.ra_init_ra_libs <;>
      cases env.ra_get_ra_library <;> cases env.client_authenticate <;>
      simp [hsel, xml_parse_calls]
  · intro t
    unfold svn_client_checkout checkout_from_ra
    cases env.wc_get_checkout_editor <;> cases env.ra_init_ra_libs <;>
      cases env.ra_get_ra_library <;> cases env.client_authenticate <;> simp [hsel]
  · intro e h1
    simp [svn_client_checkout, h1]
  · intro e h1 h2
    simp [svn_client_checkout, checkout_from_ra, h1, h2]
  · intro e h1 h2 h3
    simp [svn_client_checkout, checkout_from_ra, h1, h2, h3]
  · intro e h1 h2 h3 h4
    simp [svn_client_checkout, checkout_from_ra, h1, h2, h3, h4]
  · intro h1 h2 h3 h4
    simp [svn_client_checkout, checkout_from_ra, h1, h2, h3, h4, hsel]
  · intro xml h1 h2
    unfold svn_client_checkout checkout_from_xml
    cases hp : env.xml_auto_parse revision <;>
      simp [h1, h2, hp, xml_parse_calls, do_checkout_calls]

/-- Witness of C13 as amended: revision 5 and time 1 from a repository, with all
steps succeeding and with the authentication failing, and from an xml file. -/
theorem checkout_revision_and_time_witness :
    svn_client_checkout sample_checkout_env 5 1 none
      = (some .MutuallyExclusiveArguments,
         [.wc_get_checkout_editor 5, .ra_init_ra_libs, .ra_get_ra_library,
          .client_authenticate]) ∧
    svn_client_checkout sample_checkout_env_no_auth 5 1 none
      = (some .BackendFailure,
         [.wc_get_checkout_editor 5, .ra_init_ra_libs, .ra_get_ra_library,
          .client_authenticate]) ∧
    xml_parse_calls (svn_client_checkout sample_checkout_env 5 1 (some "co.xml")).2 = [5] :=
  ⟨(checkout_revision_and_time sample_checkout_env 5 1 (by decide) (by decide)).2.2.2.2.2.2.2.2.1
     rfl rfl rfl rfl,
   (checkout_revision_and_time sample_checkout_env_no_auth 5 1 (by decide)
     (by decide)).2.2.2.2.2.2.2.1 .BackendFailure rfl rfl rfl rfl,
   ((checkout_revision_and_time sample_checkout_env 5 1 (by decide) (by decide)).2.2.2.2.2.2.2.2.2.2
     "co.xml" rfl rfl).2.1⟩

/-- Counterexample to C13 as stated: with revision 5 and time 1, a checkout from
an xml file succeeds and runs the XML parse with revision 5; and a checkout from
a repository whose authentication fails returns the error of the authentication,
not the error of mutually exclusive arguments. -/
theorem checkout_revision_and_time_xml :
    (5 : svn_revnum_t) ≠ SVN_INVALID_REVNUM ∧ (1 : apr_time_t) ≠ 0 ∧
    svn_client_checkout sample_checkout_env 5 1 (some "co.xml")
      = (none, [.wc_get_checkout_editor 5, .apr_file_open, .xml_auto_parse 5,
          .apr_file_close]) ∧
    svn_client_checkout sample_checkout_env_no_auth 5 1 none
      = (some .BackendFailure, [.wc_get_checkout_editor 5, .ra_init_ra_libs,
          .ra_get_ra_library, .client_authenticate]) := by
  refine ⟨by decide, by decide, by decide, by decide⟩

/-- C19, as amended: in a checkout from a repository (`xml_src` NULL) in which fetching the
editor, finding the RA library and authenticating succeed, `do_checkout` is
called once: with `revision` when it is not `SVN_INVALID_REVNUM` and `tm` is zero,
with the revision `get_dated_revision` returns for `tm` when `revision` is
`SVN_INVALID_REVNUM` and `tm` is not zero, and with `SVN_INVALID_REVNUM` when
`revision` is `SVN_INVALID_REVNUM` and `tm` is zero. -/
theorem checkout_revision_selection (env : checkout_env) (revision : svn_revnum_t)
    (tm : apr_time_t) (h1 : env.wc_get_checkout_editor = none)
    (h2 : env.ra_init_ra_libs = none) (h3 : env.ra_get_ra_library = none)
    (h4 : env.client_authenticate = none) :
    (revision ≠ SVN_INVALID_REVNUM → tm = 0 →
      do_checkout_calls (svn_client_checkout env revision tm none).2 = [revision]) ∧
    (revision = SVN_INVALID_REVNUM → tm ≠ 0 → ∀ dated,
      env.get_dated_revision tm = .ok dated →
      do_checkout_calls (svn_client_checkout env revision tm none).2 = [dated] ∧
      checkout_call.get_dated_revision tm ∈ (svn_client_checkout env revision tm none).2) ∧
    (revision = SVN_INVALID_REVNUM → tm = 0 →
      do_checkout_calls (svn_client_checkout env revision tm none).2
        = [SVN_INVALID_REVNUM]) := by
  have hco : ∀ r t, do_checkout_calls (svn_client_checkout env r t none).2
      = do_checkout_calls (checkout_select_revision env r t).2 := by
    intro r t
    simp [svn_client_checkout, checkout_from_ra, h1, h2, h3, h4, do_checkout_calls]
  refine ⟨?_, ?_, ?_⟩
  · intro _ htm
    rw [hco]
    simp only [checkout_select_revision, htm, ne_eq, not_true_eq_false, and_false, if_false]
    exact (do_checkout_calls_drive_ra env revision).1
  · intro hrev htm dated hd
    constructor
    · rw [hco]
      simp only [checkout_select_revision, hrev, ne_eq, not_true_eq_false, false_and, if_false,
        htm, not_false_eq_true, if_true, hd, do_checkout_calls]
      exact (do_checkout_calls_drive_ra env dated).1
    · simp [svn_client_checkout, checkout_from_ra, h1, h2, h3, h4, checkout_select_revision,
        hrev, htm, hd]
  · intro hrev htm
    rw [hco]
    simp only [checkout_select_revision, htm, ne_eq, not_true_eq_false, and_false, if_false]
    rw [hrev]
    exact (do_checkout_calls_drive_ra env SVN_INVALID_REVNUM).1

/-- Witness of C19 as amended: the three ways to select a revision. -/
theorem checkout_revision_selection_witness :
    do_checkout_calls (svn_client_checkout sample_checkout_env 5 0 none).2 = [5] ∧
    do_checkout_calls (svn_client_checkout sample_checkout_env SVN_INVALID_REVNUM 9 none).2
      = [7] ∧
    do_checkout_calls (svn_client_checkout sample_checkout_env SVN_INVALID_REVNUM 0 none).2
      = [SVN_INVALID_REVNUM] :=
  ⟨(checkout_revision_selection sample_checkout_env 5 0 rfl rfl rfl rfl).1
     (by decide) rfl,
   ((checkout_revision_selection sample_checkout_env SVN_INVALID_REVNUM 9 rfl rfl rfl rfl).2.1
     rfl (by decide) 7 rfl).1,
   (checkout_revision_selection sample_checkout_env SVN_INVALID_REVNUM 0 rfl rfl rfl rfl).2.2
     rfl rfl⟩

/-- Counterexample to C19 as stated: with revision 5 and no time, a checkout from
a repository whose authentication fails returns that error and never calls
`do_checkout`; and with revision -2, which names no revision and is not
`SVN_INVALID_REVNUM`, and time 9, the call returns the error of mutually
exclusive arguments: `get_dated_revision` is not asked and `do_checkout` is not
called. -/
theorem checkout_revision_selection_not_reached :
    (5 : svn_revnum_t) ≠ SVN_INVALID_REVNUM ∧
    svn_client_checkout sample_checkout_env_no_auth 5 0 none
      = (some .BackendFailure, [.wc_get_checkout_editor 5, .ra_init_ra_libs,
          .ra_get_ra_library, .client_authenticate]) ∧
    do_checkout_calls (svn_client_checkout sample_checkout_env_no_auth 5 0 none).2 = [] ∧
    (-2 : svn_revnum_t) < 0 ∧ (9 : apr_time_t) ≠ 0 ∧
    sample_checkout_env.get_dated_revision 9 = .ok 7 ∧
    svn_client_checkout sample_checkout_env (-2) 9 none
      = (some .MutuallyExclusiveArguments, [.wc_get_checkout_editor (-2), .ra_init_ra_libs,
          .ra_get_ra_library, .client_authenticate]) ∧
    do_checkout_calls (svn_client_checkout sample_checkout_env (-2) 9 none).2 = [] := by
  refine ⟨by decide, by decide, by decide, by decide, by decide, rfl, by decide, by decide⟩

/-! ## `canonicalize_username` -/

theorem memchr_eq_none (c : Char) (s : List Char) (h : c ∉ s) : memchr s c = none := by
  induction s with
  | nil => rfl
  | cons b rest ih =>
    have hb : b ≠ c := fun hbc => h (by simp [hbc])
    have hr : c ∉ rest := fun hc => h (by simp [hc])
    simp [memchr, hb, ih hr]

theorem memchr_append_cons (c : Char) (user rest : List Char) (h : c ∉ user) :
    memchr (user ++ c :: rest) c = some user.length := by
  induction user with
  | nil => simp [memchr]
  | cons b tl ih =>
    have hb : b ≠ c := fun hbc => h (by simp [hbc])
    have hr : c ∉ tl := fun hc => h (by simp [hc])
    simp [memchr, hb, ih hr]

theorem takeWhile_of_no_nul (s : List Char) (h : NUL ∉ s) :
    s.takeWhile (fun b => decide (b ≠ NUL)) = s := by
  induction s with
  | nil => rfl
  | cons b rest ih =>
    have hb : b ≠ NUL := fun hbc => h (by simp [hbc])
    have hr : NUL ∉ rest := fun hc => h (by simp [hc])
    rw [List.takeWhile_cons_of_pos (by simpa using hb), ih hr]

theorem strlen_of_no_nul (s : List Char) (h : NUL ∉ s) : strlen s = s.length := by
  unfold strlen
  rw [takeWhile_of_no_nul s h]

theorem strncpy_of_no_nul (s : List Char) (h : NUL ∉ s) : strncpy s s.length = s := by
  unfold strncpy
  rw [List.take_length, takeWhile_of_no_nul s h]
  simp

theorem strncmp_self (n : Nat) : ∀ s, strncmp s s n = 0 := by
  induction n with
  | zero => intro s; simp [strncmp]
  | succ n ih =>
    intro s
    simp only [strncmp, ne_eq, not_true_eq_false, if_false]
    split
    · rfl
    · exact ih _

theorem writes_at_append (l1 l2 : List Char) :
    ∀ i, writes_at i (l1 ++ l2) = writes_at i l1 ++ writes_at (i + l1.length) l2 := by
  induction l1 with
  | nil => intro i; simp [writes_at]
  | cons b rest ih =>
    intro i
    rw [List.cons_append]
    simp only [writes_at]
    rw [ih, List.length_cons, List.cons_append]
    rw [show i + 1 + rest.length = i + (rest.length + 1) by omega]

theorem writes_at_snd (bytes : List Char) : ∀ i, (writes_at i bytes).map Prod.snd = bytes := by
  induction bytes with
  | nil => intro i; rfl
  | cons b rest ih => intro i; simp [writes_at, ih]

theorem writes_at_fst (bytes : List Char) :
    ∀ i, (writes_at i bytes).map Prod.fst = List.range' i bytes.length := by
  induction bytes with
  | nil => intro i; rfl
  | cons b rest ih => intro i; simp [writes_at, ih, List.range']

theorem writes_at_length (bytes : List Char) : ∀ i, (writes_at i bytes).length = bytes.length := by
  induction bytes with
  | nil => intro i; rfl
  | cons b rest ih => intro i; simp [writes_at, ih]

/-- The result for a username without an `@`. -/
theorem canonicalize_username_no_at (input user_realm : List Char) (out_max : Nat)
    (hat : memchr input '@' = none) :
    canonicalize_username input user_realm out_max =
      if (input.length + (strlen user_realm + 1)) % unsigned_modulus > out_max then
        ⟨SASL_BADPROT, (input.length + (strlen user_realm + 1)) % unsigned_modulus, []⟩
      else
        ⟨SASL_OK, (input.length + (strlen user_realm + 1)) % unsigned_modulus,
          writes_at 0 (strncpy input input.length) ++
            (input.length, '@') ::
              writes_at ((input.length + 1) % unsigned_modulus)
                (strncpy user_realm (strlen user_realm))⟩ := by
  simp [canonicalize_username, hat]

/-- The result for a username with an `@`, when it is accepted. -/
theorem canonicalize_username_at (input user_realm : List Char) (out_max p : Nat)
    (hat : memchr input '@' = some p)
    (hok : (canonicalize_username input user_realm out_max).ret = SASL_OK) :
    canonicalize_username input user_realm out_max =
      ⟨SASL_OK, input.length, writes_at 0 (strncpy input input.length)⟩ ∧
    input.length ≤ out_max := by
  have hne : SASL_BADPROT ≠ SASL_OK := by decide
  unfold canonicalize_username at hok ⊢
  simp only [hat] at hok ⊢
  split at hok
  · exact absurd hok hne
  · rename_i hrej
    split at hok
    · exact absurd hok hne
    · rename_i hfit
      simp only [hrej, hfit, if_false, List.append_nil, Bool.false_eq_true]
      exact ⟨trivial, by omega⟩

/-- The result for a username whose first `@` is followed by the realm. -/
theorem canonicalize_username_with_realm (user user_realm : List Char) (out_max : Nat)
    (hat : '@' ∉ user) :
    canonicalize_username (user ++ '@' :: user_realm) user_realm out_max =
      if (user ++ '@' :: user_realm).length > out_max then
        ⟨SASL_BADPROT, (user ++ '@' :: user_realm).length, []⟩
      else
        ⟨SASL_OK, (user ++ '@' :: user_realm).length,
          writes_at 0 (strncpy (user ++ '@' :: user_realm) (user ++ '@' :: user_realm).length)⟩ := by
  have hdrop : (user ++ '@' :: user_realm).drop (user.length + 1) = user_realm := by
    rw [show user ++ '@' :: user_realm = (user ++ ['@']) ++ user_realm by simp]
    rw [show user.length + 1 = (user ++ ['@']).length by simp]
    exact List.drop_left _ _
  simp only [canonicalize_username, memchr_append_cons '@' user user_realm hat, hdrop,
    strncmp_self, ne_eq, not_true_eq_false, decide_False, Bool.false_eq_true, if_false,
    List.append_nil]

theorem not_mem_of_memchr_none (c : Char) (s : List Char) (h : memchr s c = none) :
    c ∉ s := by
  induction s with
  | nil => simp
  | cons b rest ih =>
    unfold memchr at h
    by_cases hb : b = c
    · simp [hb] at h
    · simp only [hb, if_false, Option.map_eq_none'] at h
      intro hmem
      rcases List.mem_cons.1 hmem with h1 | h1
      · exact hb h1.symm
      · exact ih h h1

/-- C17, as amended: for a username without NUL, a realm and an `out_max` of type `unsigned`:
a username without `@` that fits with `@` and the realm appended is accepted, the
bytes written are the username, `@` and the realm, and `*out_len` is their
number; a username whose first `@` is followed by the realm and that fits is
accepted and written as it is; and canonicalising the output of an accepted
username that fitted returns the same result. -/
theorem canonicalize_username_canonical (input user_realm : List Char) (out_max : Nat)
    (hin : NUL ∉ input) (hrealm : NUL ∉ user_realm) (hmax : out_max < unsigned_modulus) :
    ('@' ∉ input → input.length + strlen user_realm + 1 ≤ out_max →
      canonicalize_username input user_realm out_max =
        ⟨SASL_OK, input.length + strlen user_realm + 1,
          writes_at 0 (input ++ '@' :: user_realm)⟩) ∧
    (∀ user, '@' ∉ user → input = user ++ '@' :: user_realm → input.length ≤ out_max →
      canonicalize_username input user_realm out_max =
        ⟨SASL_OK, input.length, writes_at 0 input⟩) ∧
    (∀ r, canonicalize_username input user_realm out_max = r → r.ret = SASL_OK →
      r.writes.length ≤ out_max →
      r.out_bytes = (if '@' ∈ input then input else input ++ '@' :: user_realm) ∧
      canonicalize_username r.out_bytes user_realm out_max = r) := by
  have hslen := strlen_of_no_nul user_realm hrealm
  have hcopy := strncpy_of_no_nul input hin
  have hcopyr := strncpy_of_no_nul user_realm hrealm
  have hne : SASL_BADPROT ≠ SASL_OK := by decide
  have hA : '@' ∉ input → input.length + strlen user_realm + 1 ≤ out_max →
      canonicalize_username input user_realm out_max =
        ⟨SASL_OK, input.length + strlen user_realm + 1,
          writes_at 0 (input ++ '@' :: user_realm)⟩ := by
    intro hat hfit
    rw [canonicalize_username_no_at input user_realm out_max (memchr_eq_none _ _ hat)]
    have hmod : (input.length + (strlen user_realm + 1)) % unsigned_modulus
        = input.length + strlen user_realm + 1 := by
      rw [Nat.mod_eq_of_lt (by omega)]; omega
    have hmod1 : (input.length + 1) % unsigned_modulus = input.length + 1 :=
      Nat.mod_eq_of_lt (by omega)
    rw [hmod, hmod1, if_neg (by omega), hcopy, hslen, hcopyr, writes_at_append]
    simp [writes_at]
  have hB : ∀ user, '@' ∉ user → input = user ++ '@' :: user_realm → input.length ≤ out_max →
      canonicalize_username input user_realm out_max =
        ⟨SASL_OK, input.length, writes_at 0 input⟩ := by
    intro user hat heq hfit
    have h := canonicalize_username_with_realm user user_realm out_max hat
    rw [← heq] at h
    rw [h, if_neg (by omega), hcopy]
  refine ⟨hA, hB, ?_⟩
  intro r hr hok hlen
  subst hr
  cases hm : memchr input '@' with
  | some p =>
    have hat : '@' ∈ input := by
      by_contra hnot
      rw [memchr_eq_none _ _ hnot] at hm
      cases hm
    obtain ⟨h1, _⟩ := canonicalize_username_at input user_realm out_max p hm hok
    have hbytes : (canonicalize_username input user_realm out_max).out_bytes = input := by
      rw [h1, hcopy]
      simp [canon_result.out_bytes, writes_at_snd]
    rw [hbytes, if_pos hat]
    exact ⟨rfl, rfl⟩
  | none =>
    have hat : '@' ∉ input := not_mem_of_memchr_none '@' input hm
    have hrw := canonicalize_username_no_at input user_realm out_max hm
    have hok1 := hok
    rw [hrw] at hok1 hlen
    by_cases hbig : (input.length + (strlen user_realm + 1)) % unsigned_modulus > out_max
    · rw [if_pos hbig] at hok1
      exact absurd hok1 hne
    · rw [if_neg hbig] at hlen
      simp only [hcopy, hslen, hcopyr, List.length_append, writes_at_length, List.length_cons]
        at hlen
      have hfit : input.length + strlen user_realm + 1 ≤ out_max := by rw [hslen]; omega
      have hres := hA hat hfit
      have hbytes : (canonicalize_username input user_realm out_max).out_bytes
          = input ++ '@' :: user_realm := by
        rw [hres]
        simp [canon_result.out_bytes, writes_at_snd]
      rw [hbytes, if_neg hat]
      refine ⟨rfl, ?_⟩
      have hnul2 : NUL ∉ input ++ '@' :: user_realm := by
        intro hmem
        rcases List.mem_append.1 hmem with h | h
        · exact hin h
        · rcases List.mem_cons.1 h with h | h
          · exact absurd h (by decide)
          · exact hrealm h
      have h := canonicalize_username_with_realm input user_realm out_max hat
      have hlen2 : (input ++ '@' :: user_realm).length = input.length + strlen user_realm + 1 := by
        rw [hslen]; simp; omega
      rw [h, if_neg (by omega), strncpy_of_no_nul _ hnul2, hres, hlen2]

/-- Witness of C17 as amended: `bob` and `bob@example` in the realm `example`. -/
theorem canonicalize_username_canonical_witness :
    canonicalize_username "bob".toList "example".toList 64
      = ⟨SASL_OK, 11, writes_at 0 "bob@example".toList⟩ ∧
    canonicalize_username "bob@example".toList "example".toList 64
      = ⟨SASL_OK, 11, writes_at 0 "bob@example".toList⟩ ∧
    (canonicalize_username "bob".toList "example".toList 64).out_bytes = "bob@example".toList ∧
    canonicalize_username
      (canonicalize_username "bob".toList "example".toList 64).out_bytes "example".toList 64
      = canonicalize_username "bob".toList "example".toList 64 :=
  ⟨(canonicalize_username_canonical "bob".toList "example".toList 64
      (by decide) (by decide) (by decide)).1 (by decide) (by decide),
   (canonicalize_username_canonical "bob@example".toList "example".toList 64
      (by decide) (by decide) (by decide)).2.1 "bob".toList (by decide) (by decide) (by decide),
   by decide,
   ((canonicalize_username_canonical "bob".toList "example".toList 64
      (by decide) (by decide) (by decide)).2.2 _ rfl (by decide) (by decide)).2⟩

/-- Counterexample to C17 as stated: the username `a@b@example` has no NUL, fits
in 64 bytes and contains an `@` followed by the realm `example`, and is rejected
with `SASL_BADPROT`, nothing being written: `memchr` finds the first `@`, and
what follows it, `b@example`, is compared with the realm. -/
theorem canonicalize_username_later_at :
    NUL ∉ "a@b@example".toList ∧
    "a@b@example".toList = "a@b".toList ++ '@' :: "example".toList ∧
    "a@b@example".toList.length ≤ 64 ∧
    memchr "a@b@example".toList '@' = some 1 ∧
    canonicalize_username "a@b@example".toList "example".toList 64
      = ⟨SASL_BADPROT, 11, []⟩ := by
  refine ⟨by decide, by decide, by decide, by decide, by decide⟩

theorem strncmp_prefix (given rest : List Char) (h : NUL ∉ given) :
    strncmp given (given ++ rest) given.length = 0 := by
  induction given with
  | nil => simp [strncmp]
  | cons b tl ih =>
    have hb : b ≠ NUL := fun hbc => h (by simp [hbc])
    have hr : NUL ∉ tl := fun hc => h (by simp [hc])
    simp only [List.length_cons, strncmp, List.cons_append, List.headD_cons, ne_eq,
      not_true_eq_false, if_false, hb, List.tail_cons]
    exact ih hr

/-- A username whose first `@` is followed by the first bytes of the realm, or by
nothing, is accepted when it fits. -/
theorem canonicalize_username_prefix_realm (user given rest : List Char) (out_max : Nat)
    (hat : '@' ∉ user) (hnul : NUL ∉ given)
    (hfit : (user ++ '@' :: given).length ≤ out_max) :
    (canonicalize_username (user ++ '@' :: given) (given ++ rest) out_max).ret = SASL_OK := by
  have hdrop : (user ++ '@' :: given).drop (user.length + 1) = given := by
    rw [show user ++ '@' :: given = (user ++ ['@']) ++ given by simp]
    rw [show user.length + 1 = (user ++ ['@']).length by simp]
    exact List.drop_left _ _
  have hn : (user ++ '@' :: given).length - (user.length + 1) = given.length := by
    simp only [List.length_append, List.length_cons]
    omega
  simp only [canonicalize_username, memchr_append_cons '@' user given hat, hdrop, hn,
    strncmp_prefix given rest hnul, ne_eq, not_true_eq_false, decide_False,
    Bool.false_eq_true, if_false, List.append_nil]
  rw [if_neg (by omega)]

/-- C14, the code at failing inputs: in the realm `example` the usernames
`bob@exa`, which names the realm `exa`, and `bob@`, which names the empty realm,
are accepted with SASL_OK and written as they are. -/
theorem canonicalize_username_accepts_other_realm :
    "exa".toList ≠ "example".toList ∧
    canonicalize_username "bob@exa".toList "example".toList 64
      = ⟨SASL_OK, 7, writes_at 0 "bob@exa".toList⟩ ∧
    canonicalize_username "bob@".toList "example".toList 64
      = ⟨SASL_OK, 4, writes_at 0 "bob@".toList⟩ ∧
    canonicalize_username "bob@other".toList "example".toList 64
      = ⟨SASL_BADPROT, 9, []⟩ := by
  refine ⟨by decide, by decide, by decide, by decide⟩

/-- The result for a username of `n` bytes `a` in the realm `r`, when the sum of
the lengths, modulo the range of `unsigned`, is at most `out_max`. -/
theorem canonicalize_username_replicate (n out_max : Nat)
    (h : (n + 2) % unsigned_modulus ≤ out_max) :
    (canonicalize_username (List.replicate n 'a') ['r'] out_max).ret = SASL_OK ∧
    (canonicalize_username (List.replicate n 'a') ['r'] out_max).out_len
      = (n + 2) % unsigned_modulus ∧
    (n, '@') ∈ (canonicalize_username (List.replicate n 'a') ['r'] out_max).writes ∧
    (canonicalize_username (List.replicate n 'a') ['r'] out_max).writes.length = n + 2 := by
  have hat : '@' ∉ List.replicate n 'a' := by
    intro hmem
    have := (List.mem_replicate.1 hmem).2
    exact absurd this (by decide)
  have hnul : NUL ∉ List.replicate n 'a' := by
    intro hmem
    have := (List.mem_replicate.1 hmem).2
    exact absurd this (by decide)
  have hs : strlen ['r'] = 1 := by decide
  have hc := strncpy_of_no_nul _ hnul
  rw [List.length_replicate] at hc
  have h2 : n + (1 + 1) = n + 2 := rfl
  rw [canonicalize_username_no_at _ _ _ (memchr_eq_none _ _ hat), List.length_replicate, hs,
    h2, if_neg (by omega), hc]
  refine ⟨rfl, rfl, ?_, ?_⟩
  · exact List.mem_append_right _ (List.mem_cons_self _ _)
  · have h1 : (strncpy ['r'] 1).length = 1 := by decide
    simp only [List.length_append, writes_at_length, List.length_replicate, List.length_cons, h1]

/-- C18, the code at a failing input: for a username of 4294967294 bytes and a
realm of one byte the sum `inlen + realm_len + 1` is 2^32, which is 0 as an
`unsigned`; with `out_max` 8 the check passes, SASL_OK is returned with `*out_len`
0, and 4294967296 bytes are written to `out`, one of them at index 4294967294. -/
theorem canonicalize_username_overflow :
    (List.replicate 4294967294 'a').length < unsigned_modulus ∧
    (canonicalize_username (List.replicate 4294967294 'a') ['r'] 8).ret = SASL_OK ∧
    (canonicalize_username (List.replicate 4294967294 'a') ['r'] 8).out_len = 0 ∧
    (4294967294, '@') ∈ (canonicalize_username (List.replicate 4294967294 'a') ['r'] 8).writes ∧
    (canonicalize_username (List.replicate 4294967294 'a') ['r'] 8).writes.length
      = 4294967296 := by
  have h := canonicalize_username_replicate 4294967294 8 (by decide)
  have hlen : (List.replicate 4294967294 'a').length = 4294967294 := List.length_replicate _ _
  refine ⟨?_, h.1, ?_, h.2.2.1, h.2.2.2⟩
  · rw [hlen]; decide
  · rw [h.2.1]; decide

theorem strncpy_length (src : List Char) (n : Nat) : (strncpy src n).length = n := by
  unfold strncpy
  have h1 : ((src.take n).takeWhile (fun b => decide (b ≠ NUL))).length ≤ (src.take n).length :=
    (List.takeWhile_sublist _).length_le
  have h2 : (src.take n).length ≤ n := List.length_take_le n src
  rw [List.length_append, List.length_replicate]
  omega

/-- When the sum `inlen + realm_len + 1` is in the range of `unsigned`, a call
that returns SASL_OK has written exactly the indices `0 .. *out_len - 1`, with
`*out_len` at most `out_max`, and a call that does not has written nothing. -/
theorem canonicalize_username_in_bounds (input user_realm : List Char) (out_max : Nat)
    (hsum : input.length + strlen user_realm + 1 < unsigned_modulus) :
    ((canonicalize_username input user_realm out_max).ret = SASL_OK →
      (canonicalize_username input user_realm out_max).writes.map Prod.fst
        = List.range' 0 (canonicalize_username input user_realm out_max).out_len ∧
      (canonicalize_username input user_realm out_max).out_len ≤ out_max) ∧
    ((canonicalize_username input user_realm out_max).ret ≠ SASL_OK →
      (canonicalize_username input user_realm out_max).ret = SASL_BADPROT ∧
      (canonicalize_username input user_realm out_max).writes = []) := by
  have hne : SASL_BADPROT ≠ SASL_OK := by decide
  cases hm : memchr input '@' with
  | some p =>
    constructor
    · intro hok
      obtain ⟨h1, h2⟩ := canonicalize_username_at input user_realm out_max p hm hok
      rw [h1]
      simp only [writes_at_fst, strncpy_length]
      exact ⟨trivial, h2⟩
    · intro hnot
      unfold canonicalize_username at hnot ⊢
      simp only [hm] at hnot ⊢
      split
      · exact ⟨rfl, rfl⟩
      · split
        · exact ⟨rfl, rfl⟩
        · rename_i h1 h2
          simp only [h1, h2, if_false, Bool.false_eq_true] at hnot
          exact absurd rfl hnot
  | none =>
    have hrw := canonicalize_username_no_at input user_realm out_max hm
    have hmod : (input.length + (strlen user_realm + 1)) % unsigned_modulus
        = input.length + (strlen user_realm + 1) := Nat.mod_eq_of_lt (by omega)
    have hmod1 : (input.length + 1) % unsigned_modulus = input.length + 1 :=
      Nat.mod_eq_of_lt (by omega)
    rw [hrw, hmod, hmod1]
    by_cases hbig : input.length + (strlen user_realm + 1) > out_max
    · rw [if_pos hbig]
      exact ⟨fun hok => absurd hok hne, fun _ => ⟨rfl, rfl⟩⟩
    · rw [if_neg hbig]
      refine ⟨fun _ => ⟨?_, Nat.le_of_not_gt hbig⟩, fun hnot => absurd rfl hnot⟩
      simp only [List.map_append, List.map_cons, writes_at_fst, strncpy_length]
      rw [← List.range'_succ]
      have happ := List.range'_append_1 0 input.length (strlen user_realm + 1)
      rw [Nat.zero_add] at happ
      rw [happ]
      congr 1
      omega

/-! ## `try_auth` -/

theorem sasl_results_append (l1 l2 : List auth_event) :
    sasl_results (l1 ++ l2) = sasl_results l1 ++ sasl_results l2 := by
  induction l1 with
  | nil => simp [sasl_results]
  | cons ev rest ih => cases ev <;> simp [sasl_results, ih]

theorem fail_auth_events (script : auth_script) :
    sasl_results (fail_auth script).2 = [] ∧
    ∀ ev ∈ (fail_auth script).2, ev.is_write_success = false ∧ ev.is_non_string_item = false := by
  unfold fail_auth
  cases script.write_failure <;>
    simp [sasl_results, auth_event.is_write_success, auth_event.is_non_string_item]

theorem auth_sound_of_fail (script : auth_script) (events : List auth_event) (result : Int)
    (hg : auth_going events result) (hne : result ≠ SASL_OK) :
    auth_sound ⟨(fail_auth script).1, false, events ++ (fail_auth script).2⟩ := by
  obtain ⟨hf1, hf2⟩ := fail_auth_events script
  refine ⟨⟨fun h => Bool.noConfusion h, ?_⟩, ?_, ?_⟩
  · intro h
    simp only [sasl_results_append, hf1, List.append_nil, hg.1, Option.some.injEq] at h
    exact absurd h hne
  · intro _ ev hev
    rcases List.mem_append.1 hev with hev | hev
    · exact (hg.2 ev hev).1
    · exact (hf2 ev hev).1
  · rintro ⟨ev, hev, hns⟩
    rcases List.mem_append.1 hev with hev | hev
    · rw [(hg.2 ev hev).2] at hns; cases hns
    · rw [(hf2 ev hev).2] at hns; cases hns

theorem auth_sound_finish (script : auth_script) (reply : sasl_reply)
    (events : List auth_event) (hg : auth_going events reply.result) :
    auth_sound (try_auth_finish script reply events) := by
  unfold try_auth_finish
  by_cases hok : reply.result = SASL_OK
  · simp only [hok, ne_eq, not_true_eq_false, if_false]
    refine ⟨⟨fun _ => ?_, fun _ => rfl⟩, fun h => Bool.noConfusion h, ?_⟩
    · simp only [sasl_results_append, sasl_results, List.append_nil, hg.1, hok]
    · rintro ⟨ev, hev, hns⟩
      rcases List.mem_append.1 hev with hev | hev
      · rw [(hg.2 ev hev).2] at hns; cases hns
      · simp only [List.mem_singleton] at hev
        subst hev
        simp [auth_event.is_non_string_item] at hns
  · simp only [ne_eq, hok, not_false_eq_true, if_true]
    exact auth_sound_of_fail script events reply.result hg hok

theorem auth_sound_of_error (events : List auth_event) (result : Int) (e : Option svn_error_t)
    (extra : List auth_event) (hg : auth_going events result) (hne : result ≠ SASL_OK)
    (hx1 : sasl_results extra = [])
    (hx2 : ∀ ev ∈ extra, ev.is_write_success = false)
    (hx3 : (∃ ev ∈ extra, ev.is_non_string_item = true) → e = none) :
    auth_sound ⟨e, false, events ++ extra⟩ := by
  refine ⟨⟨fun h => Bool.noConfusion h, ?_⟩, ?_, ?_⟩
  · intro h
    simp only [sasl_results_append, hx1, List.append_nil, hg.1, Option.some.injEq] at h
    exact absurd h hne
  · intro _ ev hev
    rcases List.mem_append.1 hev with hev | hev
    · exact (hg.2 ev hev).1
    · exact hx2 ev hev
  · rintro ⟨ev, hev, hns⟩
    rcases List.mem_append.1 hev with hev | hev
    · rw [(hg.2 ev hev).2] at hns; cases hns
    · exact ⟨rfl, hx3 ⟨ev, hev, hns⟩⟩

theorem sasl_continue_ne_ok : SASL_CONTINUE ≠ SASL_OK := by decide

/-- The loop of `try_auth`, from events of an exchange that goes on. -/
theorem try_auth_loop_sound (script : auth_script) (use_base64 : Bool)
    (rounds : List auth_round) :
    ∀ reply events outcome, auth_going events reply.result →
      try_auth_loop script use_base64 rounds reply events = some outcome →
      auth_sound outcome := by
  induction rounds with
  | nil =>
    intro reply events outcome hg h
    unfold try_auth_loop at h
    by_cases hc : reply.result = SASL_CONTINUE
    · simp [hc] at h
    · simp only [hc, if_false, Option.some.injEq] at h
      subst h
      exact auth_sound_finish script reply events hg
  | cons round rest ih =>
    intro reply events outcome hg h
    unfold try_auth_loop at h
    by_cases hc : reply.result = SASL_CONTINUE
    · have hne : reply.result ≠ SASL_OK := by rw [hc]; exact sasl_continue_ne_ok
      simp only [hc, if_true] at h
      cases hw : round.write_step with
      | some e =>
        simp only [hw, Option.some.injEq] at h
        subst h
        exact auth_sound_of_error events reply.result _ _ hg hne
          (by simp [sasl_results]) (by simp [auth_event.is_write_success])
          (by simp [auth_event.is_non_string_item])
      | none =>
        simp only [hw] at h
        cases hi : round.item with
        | error e =>
          simp only [hi, Option.some.injEq] at h
          subst h
          exact auth_sound_of_error events reply.result _ _ hg hne
            (by simp [sasl_results]) (by simp [auth_event.is_write_success])
            (by simp [auth_event.is_non_string_item])
        | ok item =>
          cases item with
          | string s =>
            simp only [hi] at h
            refine ih _ _ _ ?_ h
            constructor
            · simp [sasl_results_append, sasl_results]
            · intro ev hev
              rcases List.mem_append.1 hev with hev | hev
              · exact hg.2 ev hev
              · simp only [List.mem_cons, List.mem_singleton, List.not_mem_nil, or_false] at hev
                rcases hev with hev | hev | hev <;> subst hev <;>
                  simp [auth_event.is_write_success, auth_event.is_non_string_item]
          | number n =>
            simp only [hi, Option.some.injEq] at h
            subst h
            exact auth_sound_of_error events reply.result _ _ hg hne
              (by simp [sasl_results]) (by simp [auth_event.is_write_success]) (fun _ => rfl)
          | word w =>
            simp only [hi, Option.some.injEq] at h
            subst h
            exact auth_sound_of_error events reply.result _ _ hg hne
              (by simp [sasl_results]) (by simp [auth_event.is_write_success]) (fun _ => rfl)
          | list =>
            simp only [hi, Option.some.injEq] at h
            subst h
            exact auth_sound_of_error events reply.result _ _ hg hne
              (by simp [sasl_results]) (by simp [auth_event.is_write_success]) (fun _ => rfl)
    · simp only [hc, if_false, Option.some.injEq] at h
      subst h
      exact auth_sound_finish script reply events hg

/-- C20: whatever a call of `try_auth` returns, `*success` is TRUE only if, and
exactly when, the last result of `sasl_server_start` or `sasl_server_step` is
SASL_OK; when `*success` is FALSE no `success` tuple was written; and when the
client sent an item that is not a string `*success` is FALSE and no error is
returned. -/
theorem try_auth_success_only_if_sasl_ok (script : auth_script) (outcome : auth_outcome)
    (h : try_auth script = some outcome) :
    (outcome.success = true ↔ (sasl_results outcome.events).getLast? = some SASL_OK) ∧
    (outcome.success = false → ∀ ev ∈ outcome.events, ev.is_write_success = false) ∧
    ((∃ ev ∈ outcome.events, ev.is_non_string_item = true) →
      outcome.success = false ∧ outcome.err = none) := by
  show auth_sound outcome
  unfold try_auth at h
  cases ht : script.tuple with
  | error e =>
    simp only [ht, Option.some.injEq] at h
    subst h
    exact ⟨⟨fun h => Bool.noConfusion h, fun h => by simp [sasl_results] at h⟩,
      (by simp), (by simp)⟩
  | ok pair =>
    obtain ⟨mech, token⟩ := pair
    simp only [ht] at h
    have hg : ∀ input, auth_going
        [auth_event.sasl_server_start mech input script.start.result] script.start.result := by
      intro input
      constructor
      · simp [sasl_results]
      · intro ev hev
        simp only [List.mem_singleton] at hev
        subst hev
        simp [auth_event.is_write_success, auth_event.is_non_string_item]
    split at h
    · rename_i hbad
      simp only [Option.some.injEq] at h
      subst h
      exact auth_sound_of_fail script _ _ (hg _) hbad.1
    · exact try_auth_loop_sound script _ script.rounds _ _ _ (hg _) h

/-- Witness of C20: an exchange the SASL library accepts after one step. -/
theorem try_auth_success_only_if_sasl_ok_witness :
    try_auth (sample_script "CRAM-MD5" ⟨SASL_CONTINUE, ['c']⟩
        [⟨none, .ok (.string ['r']), ⟨SASL_OK, []⟩⟩]) =
      some ⟨none, true, [.sasl_server_start "CRAM-MD5" none 1, .write_step ['c'],
        .read_item (.string ['r']), .sasl_server_step ['r'] 0, .write_success none]⟩ ∧
    (sasl_results [.sasl_server_start "CRAM-MD5" none 1, .write_step ['c'],
        .read_item (.string ['r']), .sasl_server_step ['r'] 0,
        .write_success none]).getLast? = some SASL_OK :=
  ⟨by decide,
   (try_auth_success_only_if_sasl_ok
      (sample_script "CRAM-MD5" ⟨SASL_CONTINUE, ['c']⟩
        [⟨none, .ok (.string ['r']), ⟨SASL_OK, []⟩⟩])
      ⟨none, true, [.sasl_server_start "CRAM-MD5" none 1, .write_step ['c'],
        .read_item (.string ['r']), .sasl_server_step ['r'] 0, .write_success none]⟩
      (by decide)).1.1 rfl⟩

/-! ## Termination of `delete_from_id` -/

theorem sub_nodes_trans {db2 db1 db : Store} (h1 : sub_nodes db2 db1) (h2 : sub_nodes db1 db) :
    sub_nodes db2 db :=
  fun i rec h => h2 i rec (h1 i rec h)

theorem mem_keys_of_get {κ β : Type} [DecidableEq κ] (k : κ) (v : β) (tbl : List (κ × β))
    (h : table_get k tbl = some v) : k ∈ table_keys tbl := by
  by_contra hnot
  rw [(table_get_eq_none_iff k tbl).2 hnot] at h
  cases h

/-- The loop returns when every call of `visit` does, from any state below the
tables the walk started on. -/
theorem delete_entries_returns (db0 : Store)
    (visit : svn_fs_id_t → trail_t → Outcome trail_t Unit)
    (hsub : ∀ id t r t1, visit id t = some (r, t1) → sub_nodes t1.db t.db)
    (entries : List (String × svn_fs_id_t)) :
    (∀ c ∈ entries.map Prod.snd, ∀ t, sub_nodes t.db db0 → ∃ r t1, visit c t = some (r, t1)) →
    ∀ t, sub_nodes t.db db0 → ∃ r t1, delete_entries visit entries t = some (r, t1) := by
  induction entries with
  | nil => intro _ t _; exact ⟨.ok (), t, rfl⟩
  | cons entry rest ih =>
    intro hv t ht
    obtain ⟨r0, t0, h0⟩ := hv entry.2 (by simp) t ht
    simp only [delete_entries, h0]
    cases r0 with
    | error e => exact ⟨.error e, t0, rfl⟩
    | ok u =>
      exact ih (fun c hc => hv c (by simp only [List.map_cons, List.mem_cons]; exact Or.inr hc))
        t0 (sub_nodes_trans (hsub _ _ _ _ h0) ht)

theorem delete_from_id_sub (depth : Nat) (id : svn_fs_id_t) (t : trail_t)
    (r : Except svn_error_t Unit) (t1 : trail_t)
    (h : delete_from_id depth id t = some (r, t1)) : sub_nodes t1.db t.db := by
  obtain ⟨ids, hf, _⟩ := delete_from_id_frame depth id t r t1 h
  exact walk_frame_sub hf

/-- With `path` the directories the recursion is in, each of them leading to
`id`, a call of `delete_from_id` returns when its depth bound exceeds the number
of records that are not on the path. -/
theorem delete_from_id_returns_on_path (db0 : Store) (root : svn_fs_id_t)
    (hacyc : acyclic_from db0 root) (depth : Nat) :
    ∀ (path : List svn_fs_id_t) (id : svn_fs_id_t) (t : trail_t),
      sub_nodes t.db db0 → reachable db0 root id → path.Nodup →
      (∀ x ∈ path, x ∈ table_keys db0.nodes ∧ Relation.TransGen (has_entry db0) x id) →
      db0.nodes.length < depth + path.length →
      ∃ r t1, delete_from_id depth id t = some (r, t1) := by
  induction depth with
  | zero =>
    intro path id t _ _ hnd hpath hlen
    have hle : path.length ≤ (table_keys db0.nodes).length :=
      (List.subperm_of_subset hnd (fun x hx => (hpath x hx).1)).length_le
    simp only [table_keys, List.length_map] at hle
    omega
  | succ depth ih =>
    intro path id t ht hreach hnd hpath hlen
    rw [delete_from_id_succ]
    cases hg : table_get id t.db.nodes with
    | none => exact ⟨_, _, rfl⟩
    | some rec =>
      simp only []
      by_cases hm : rec.is_mutable = true
      · simp only [hm, if_true]
        cases hcont : rec.content with
        | file blob => exact ⟨_, _, rfl⟩
        | dir entries =>
          simp only []
          have hg0 : table_get id db0.nodes = some rec := ht _ _ hg
          have hid : id ∉ path := fun hmem => hacyc id hreach (hpath id hmem).2
          have hloop : ∃ r t1, delete_entries (delete_from_id depth) entries t = some (r, t1) := by
            apply delete_entries_returns db0 _ (delete_from_id_sub depth) entries _ t ht
            intro c hc t2 ht2
            have he : has_entry db0 id c := ⟨rec, entries, hg0, hcont, hc⟩
            apply ih (id :: path) c t2 ht2 (.step hreach he) (List.nodup_cons.2 ⟨hid, hnd⟩)
            · intro x hx
              rcases List.mem_cons.1 hx with hx | hx
              · subst hx
                exact ⟨mem_keys_of_get _ _ _ hg0, .single he⟩
              · exact ⟨(hpath x hx).1, .tail (hpath x hx).2 he⟩
            · simp only [List.length_cons]; omega
          obtain ⟨r0, t0, h0⟩ := hloop
          rw [h0]
          cases r0 with
          | error e => exact ⟨_, _, rfl⟩
          | ok u => exact ⟨_, _, rfl⟩
      · simp only [hm, Bool.false_eq_true, if_false]
        exact ⟨_, _, rfl⟩

theorem delete_entries_mono (visit visit1 : svn_fs_id_t → trail_t → Outcome trail_t Unit)
    (hv : ∀ id t x, visit id t = some x → visit1 id t = some x)
    (entries : List (String × svn_fs_id_t)) :
    ∀ t x, delete_entries visit entries t = some x → delete_entries visit1 entries t = some x := by
  induction entries with
  | nil => intro t x h; exact h
  | cons entry rest ih =>
    intro t x h
    simp only [delete_entries] at h ⊢
    cases hc : visit entry.2 t with
    | none => simp [hc] at h
    | some res =>
      obtain ⟨r0, t0⟩ := res
      rw [hv _ _ _ hc]
      cases r0 with
      | error e => simpa [hc] using h
      | ok u =>
        simp only [hc] at h
        exact ih _ _ h

/-- A result found within a depth bound is found within every larger one. -/
theorem delete_from_id_mono_succ (depth : Nat) :
    ∀ id t x, delete_from_id depth id t = some x → delete_from_id (depth + 1) id t = some x := by
  induction depth with
  | zero => intro id t x h; simp [delete_from_id] at h
  | succ depth ih =>
    intro id t x h
    rw [delete_from_id_succ] at h ⊢
    cases hg : table_get id t.db.nodes with
    | none => simpa [hg] using h
    | some rec =>
      simp only [hg] at h ⊢
      by_cases hm : rec.is_mutable = true
      · simp only [hm, if_true] at h ⊢
        cases hcont : rec.content with
        | file blob => simpa [hcont] using h
        | dir entries =>
          simp only [hcont] at h ⊢
          cases hl : delete_entries (delete_from_id depth) entries t with
          | none => simp [hl] at h
          | some res =>
            rw [delete_entries_mono _ _ ih entries t res hl]
            simpa [hl] using h
      · simpa [hm] using h

theorem delete_from_id_mono (depth extra : Nat) (id : svn_fs_id_t) (t : trail_t)
    (x : Except svn_error_t Unit × trail_t) (h : delete_from_id depth id t = some x) :
    delete_from_id (depth + extra) id t = some x := by
  induction extra with
  | zero => exact h
  | succ n ih => exact delete_from_id_mono_succ _ _ _ _ ih

/-- On `cyclic_db` the walk from node 1 returns within no depth bound. -/
theorem delete_from_id_cyclic (depth : Nat) :
    ∀ log, delete_from_id depth 1 ⟨cyclic_db, log⟩ = none := by
  induction depth with
  | zero => intro log; rfl
  | succ depth ih =>
    intro log
    rw [delete_from_id_succ]
    have hg : table_get 1 cyclic_db.nodes = some ⟨.dir [("self", 1)], true⟩ := by decide
    simp only [hg, if_true, delete_entries, ih]

theorem acyclic_of_rank (db : Store) (rank : svn_fs_id_t → Nat)
    (h : ∀ d c, has_entry db d c → rank c < rank d) (root : svn_fs_id_t) :
    acyclic_from db root := by
  have hlt : ∀ x y, Relation.TransGen (has_entry db) x y → rank y < rank x := by
    intro x y hxy
    induction hxy with
    | single he => exact h _ _ he
    | tail _ he ih => exact lt_trans (h _ _ he) ih
  intro x _ hcycle
  exact lt_irrefl _ (hlt x x hcycle)

/-- In `diamond_db` the only directory entries lead from node 1 to node 2. -/
theorem diamond_db_acyclic : acyclic_from diamond_db 1 := by
  apply acyclic_of_rank diamond_db (fun i => if i = 1 then 1 else 0)
  rintro d c ⟨rec, entries, hg, hc, hmem⟩
  simp only [diamond_db, table_get] at hg
  split_ifs at hg <;> simp only [Option.some.injEq] at hg <;> subst hg
  all_goals first
    | (exfalso; simp at hc; done)
    | (simp only [node_content.dir.injEq] at hc
       subst hc
       simp at hmem
       done)
    | (simp only [node_content.dir.injEq] at hc
       subst hc
       simp only [List.map_cons, List.map_nil, List.mem_cons, List.mem_singleton,
         List.not_mem_nil, or_false, or_self] at hmem
       subst_vars
       decide)

/-- When the directory entries reachable from the root of a transaction form no
cycle, the body of its abort and `svn_fs_abort_txn` return, with the same result
at every depth bound above the number of node-revision records. -/
theorem abort_txn_returns (txn : svn_fs_txn_t) (db : Store)
    (hacyc : ∀ rec, table_get txn.id db.transactions = some rec →
      acyclic_from db rec.root_id) :
    ∃ r db1, ∀ depth, db.nodes.length < depth →
      svn_fs_abort_txn depth txn db = some (r, db1) := by
  cases hg : table_get txn.id db.transactions with
  | none => exact ⟨_, _, fun depth _ => abort_txn_of_no_record depth txn db hg⟩
  | some rec =>
    obtain ⟨r, t1, h⟩ := delete_from_id_returns_on_path db rec.root_id (hacyc rec hg)
      (db.nodes.length + 1) [] rec.root_id ⟨db, []⟩ (fun _ _ x => x) .here List.nodup_nil
      (by simp) (by simp)
    have hall : ∀ depth, db.nodes.length < depth →
        delete_from_id depth rec.root_id ⟨db, []⟩ = some (r, t1) := by
      intro depth hd
      have := delete_from_id_mono (db.nodes.length + 1) (depth - (db.nodes.length + 1))
        rec.root_id ⟨db, []⟩ _ h
      rwa [show db.nodes.length + 1 + (depth - (db.nodes.length + 1)) = depth by omega] at this
    cases r with
    | error e =>
      refine ⟨.error e, db, fun depth hd => ?_⟩
      unfold svn_fs_abort_txn svn_fs__retry_txn
      rw [txn_body_abort_txn_eq]
      simp only [hg, hall depth hd]
    | ok u =>
      cases hdel : svn_fs__delete_txn txn.id t1 with
      | mk r2 t2 =>
        cases r2 with
        | error e =>
          refine ⟨.error e, db, fun depth hd => ?_⟩
          unfold svn_fs_abort_txn svn_fs__retry_txn
          rw [txn_body_abort_txn_eq]
          simp only [hg, hall depth hd, hdel]
        | ok u2 =>
          refine ⟨.ok u2, t2.db, fun depth hd => ?_⟩
          unfold svn_fs_abort_txn svn_fs__retry_txn
          rw [txn_body_abort_txn_eq]
          simp only [hg, hall depth hd, hdel]

/-- C21: when no node reachable from `id` by directory entries of the tables lies
on a cycle of directory entries, `delete_from_id` on `id` returns, with success
or with an error: there is one result that it returns at every depth bound above
the number of node-revision records, so the recursion is never deeper than the
number of records plus one. -/
theorem delete_from_id_terminates (db : Store) (id : svn_fs_id_t) (log : List backend_call)
    (hacyc : acyclic_from db id) :
    ∃ r t1, ∀ depth, db.nodes.length < depth →
      delete_from_id depth id ⟨db, log⟩ = some (r, t1) := by
  obtain ⟨r, t1, h⟩ := delete_from_id_returns_on_path db id hacyc
    (db.nodes.length + 1) [] id ⟨db, log⟩ (fun _ _ x => x) .here List.nodup_nil
    (by simp) (by simp)
  refine ⟨r, t1, fun depth hd => ?_⟩
  have := delete_from_id_mono (db.nodes.length + 1) (depth - (db.nodes.length + 1))
    id ⟨db, log⟩ _ h
  rwa [show db.nodes.length + 1 + (depth - (db.nodes.length + 1)) = depth by omega] at this

/-- Witness of C21: the walk from node 1 of `diamond_db`, which has three
records and no cycle, returns an error at every depth bound above 3; the walk
from node 1 of `cyclic_db` returns at none. -/
theorem delete_from_id_terminates_witness :
    acyclic_from diamond_db 1 ∧
    (∃ r t1, ∀ depth, diamond_db.nodes.length < depth →
      delete_from_id depth 1 ⟨diamond_db, []⟩ = some (r, t1)) ∧
    delete_from_id 4 1 ⟨diamond_db, []⟩ = some (.error .NotFound, diamond_trail_failed) ∧
    delete_from_id 4 1 ⟨cyclic_db, []⟩ = none :=
  ⟨diamond_db_acyclic, delete_from_id_terminates diamond_db 1 [] diamond_db_acyclic,
   by decide, by decide⟩

/-! ## The abort of a tree of mutable nodes -/

end SvnFs
